import Mathlib

/-!
Verification development for the imdb-lense title-resolution pipeline.

The TypeScript services are shallowly embedded.  JS strings are Lean
`String`s (manipulated through their `List Char` data), JS `number`s are
embedded as `ℝ` where the code mixes logarithms and fractions (match
scoring) and as `Nat`/`Int`/`ℚ` where only integral or plain decimal
values occur, absent/optional fields are `Option`s, and fallible remote
calls are oracles supplied through an environment record whose results
are `Except`-valued (an `Except.error` models a thrown/rejected
promise).  Unicode-dependent JS built-ins (`toLowerCase`,
`String.prototype.normalize`, regex character classes) are modelled
char-wise; the case/decomposition tables are restricted to a
representative subtable (Basic Latin plus the Latin-1 letters the
German-focused app actually meets), documented at each definition.
-/

namespace Js

/-- Modelled JS whitespace class `\s` (representative subset: space, tab,
newline, carriage return, vertical tab, form feed). -/
def isWsChar (c : Char) : Bool :=
  c = ' ' || c = '\t' || c = '\n' || c = '\r' || c = '\u000b' || c = '\u000c'

/-- Case-mapping table for the modelled `String.prototype.toLowerCase`:
ASCII `A`-`Z` plus the Latin-1 uppercase letters (in particular the German
umlauts).  JS `toLowerCase` agrees with this table on the modelled range. -/
def lowerPairs : List (Char × Char) :=
  [('A', 'a'), ('B', 'b'), ('C', 'c'), ('D', 'd'), ('E', 'e'), ('F', 'f'),
   ('G', 'g'), ('H', 'h'), ('I', 'i'), ('J', 'j'), ('K', 'k'), ('L', 'l'),
   ('M', 'm'), ('N', 'n'), ('O', 'o'), ('P', 'p'), ('Q', 'q'), ('R', 'r'),
   ('S', 's'), ('T', 't'), ('U', 'u'), ('V', 'v'), ('W', 'w'), ('X', 'x'),
   ('Y', 'y'), ('Z', 'z'),
   ('Ä', 'ä'), ('Ö', 'ö'), ('Ü', 'ü'),
   ('À', 'à'), ('Á', 'á'), ('È', 'è'), ('É', 'é'), ('Ç', 'ç'), ('Ñ', 'ñ')]

/-- Modelled JS `toLowerCase`, applied char-wise via `lowerPairs`. -/
def jsToLower (c : Char) : Char :=
  ((lowerPairs.find? (fun p => p.1 = c)).map (fun p => p.2)).getD c

/-- Canonical-decomposition table for the modelled
`String.prototype.normalize` (NFD/NFKD): the Latin-1 precomposed lowercase
letters the pipeline meets, mapped to base letter plus combining mark
(all marks lie in U+0300-U+036F).  Characters outside the table are
treated as having no decomposition. -/
def nfdPairs : List (Char × List Char) :=
  [('ä', ['a', '̈']), ('ö', ['o', '̈']), ('ü', ['u', '̈']),
   ('à', ['a', '̀']), ('á', ['a', '́']),
   ('è', ['e', '̀']), ('é', ['e', '́']),
   ('ç', ['c', '̧']), ('ñ', ['n', '̃'])]

/-- Modelled char-wise canonical decomposition. -/
def nfdDecompose (c : Char) : List Char :=
  ((nfdPairs.find? (fun p => p.1 = c)).map (fun p => p.2)).getD [c]

/-- Modelled Unicode-normalization of a char list (`normalize('NFD')` /
`normalize('NFKD')`; the modelled subtable is canonical, where the two
forms coincide). -/
def nfdNormalize (l : List Char) : List Char :=
  l.flatMap nfdDecompose

/-- Modelled regex class `\p{L}` (Unicode letter): ASCII letters plus the
Latin-1 letters (excluding the two Latin-1 non-letters, the multiply and
divide signs); combining marks (category M) are not letters. -/
def isLetterP (c : Char) : Bool :=
  (0x61 ≤ c.toNat && c.toNat ≤ 0x7A) || (0x41 ≤ c.toNat && c.toNat ≤ 0x5A) ||
    (0xC0 ≤ c.toNat && c.toNat ≤ 0xFF && c.toNat ≠ 0xD7 && c.toNat ≠ 0xF7)

/-- Modelled regex class `\p{N}` restricted to the decimal digits the
pipeline meets. -/
def isDigitP (c : Char) : Bool := 0x30 ≤ c.toNat && c.toNat ≤ 0x39

/-- Regex class `\w` (ASCII word character; JS `\w` is ASCII-only). -/
def isAsciiWordChar (c : Char) : Bool :=
  (0x61 ≤ c.toNat && c.toNat ≤ 0x7A) || (0x41 ≤ c.toNat && c.toNat ≤ 0x5A) ||
    (0x30 ≤ c.toNat && c.toNat ≤ 0x39) || c.toNat = 0x5F

/-- The explicit combining-mark range `[̀-ͯ]` (U+0300-U+036F) used by the
legacy normalizer. -/
def isCombiningMark (c : Char) : Bool :=
  0x300 ≤ c.toNat && c.toNat ≤ 0x36F

/-- Embedding of `replace(/\s+/g, sep)`: every maximal run of whitespace
is replaced by `sep`.  The `prevWs` flag records whether the previous
consumed char belonged to a whitespace run. -/
def replaceWsRunsAux (sep : List Char) : Bool → List Char → List Char
  | _, [] => []
  | true, c :: cs =>
    if isWsChar c then replaceWsRunsAux sep true cs
    else c :: replaceWsRunsAux sep false cs
  | false, c :: cs =>
    if isWsChar c then sep ++ replaceWsRunsAux sep true cs
    else c :: replaceWsRunsAux sep false cs

/-- Embedding of `replace(/\s+/g, sep)`. -/
def replaceWsRuns (sep : List Char) (l : List Char) : List Char :=
  replaceWsRunsAux sep false l

/-- Embedding of `replace(/\s+/g, ' ')` (whitespace collapsing). -/
def collapseWs (l : List Char) : List Char :=
  replaceWsRuns [' '] l

/-- Embedding of `trim()` on char lists. -/
def jsTrimList (l : List Char) : List Char :=
  ((l.dropWhile isWsChar).reverse.dropWhile isWsChar).reverse

/-- JS truthiness of an optional string (`undefined`, `null` and the empty
string are falsy). -/
def strTruthy : Option String → Bool
  | none => false
  | some s => s ≠ ""

/-- Value of a list of decimal digits. -/
def digitsToNat (l : List Char) : Nat :=
  l.foldl (fun n c => n * 10 + (c.toNat - '0'.toNat)) 0

/-- Modelled JS `parseFloat` restricted to the shapes the pipeline meets:
optional leading whitespace, optional sign, decimal digits with an
optional fractional part.  It returns `none` exactly when JS would
produce a non-finite value (`NaN` for an unparsable string, `Infinity`
for the infinity literal); the callers only observe the composite
`Number.isFinite(parseFloat(s))` test, which this models. -/
def jsParseFloat (s : String) : Option ℚ :=
  let l := s.data.dropWhile isWsChar
  let signed : ℚ × List Char :=
    match l with
    | '-' :: r => (-1, r)
    | '+' :: r => (1, r)
    | r => (1, r)
  if signed.2.take 8 = "Infinity".data then none
  else
    let intPart := signed.2.takeWhile Char.isDigit
    let rest := signed.2.dropWhile Char.isDigit
    let fracPart := match rest with
      | '.' :: r => r.takeWhile Char.isDigit
      | _ => []
    if intPart = [] ∧ fracPart = [] then none
    else some (signed.1 * ((digitsToNat intPart : ℚ)
      + (digitsToNat fracPart : ℚ) / (10 ^ fracPart.length)))

/-- JS `a || b` on an optional string with a string default. -/
def jsOrS (a : Option String) (b : String) : String :=
  match a with
  | some s => if s = "" then b else s
  | none => b

/-- JS `a ?? b` (nullish coalescing) on optional strings: unlike `||` it
keeps an empty string. -/
def jsNullish (a b : Option String) : Option String :=
  match a with
  | some s => some s
  | none => b

/-- JS numeric truthy-default `(x || 0)` on an optional numeric field
(`some 0` and `none` both yield 0; `NaN` is outside the model). -/
def numOr0 : Option ℝ → ℝ
  | some x => x
  | none => 0

/-- Modelled `new Date(s).getFullYear()`: the leading four digits of an
ISO-style date string; `none` models the `NaN` produced for unparsable
input (every branch reading it treats `NaN` like an out-of-range year). -/
def jsGetFullYear (s : String) : Option Int :=
  let ds := s.data.takeWhile Char.isDigit
  if ds.length = 4 then some (digitsToNat ds : Int) else none

def jsDedupAux (seen : List String) : List String → List String
  | [] => []
  | x :: xs => if x ∈ seen then jsDedupAux seen xs else x :: jsDedupAux (x :: seen) xs

/-- `[...new Set(list)]`: first-occurrence deduplication. -/
def jsDedup (l : List String) : List String := jsDedupAux [] l

/-- Head chunk of a `splitOnP` decomposition. -/
def headChunk (p : Char → Bool) (l : List Char) : List Char :=
  ((l.splitOnP p).head?).getD []

/-- Number of long (length > 2) chunks among the tail chunks of a
`splitOnP` decomposition. -/
def tailLongChunks (p : Char → Bool) (l : List Char) : Nat :=
  (((l.splitOnP p).tail).filter (fun w => 2 < w.length)).length

end Js

namespace TmdbService

open Js

/-- Embedding of `normalizeText` from the current TMDB service
(diacritic-preserving profile): lower-case, `normalize('NFD')`, replace
every char outside `[\p{L}\p{N}\s]` by a space, collapse whitespace,
trim.  (Combining marks are category M, hence also replaced by spaces.) -/
def normalizeText (text : String) : String :=
  ⟨jsTrimList (collapseWs
    ((nfdNormalize (text.data.map jsToLower)).map
      (fun c => if isLetterP c || isDigitP c || isWsChar c then c else ' ')))⟩

/-- One provider response to a request issued by `tmdbFetch`.  `retryAfter`
models the parsed optional `Retry-After` header of a 429 response. -/
inductive TmdbResponse where
  | ok (body : String)
  | rateLimited (retryAfter : Option Nat)
  | httpError (statusMessage : String)
deriving DecidableEq

/-- Observable outcome of one `tmdbFetch` call: JSON body returned, error
thrown, or still awaiting a response (the supplied response sequence was
exhausted while retrying). -/
inductive FetchOutcome where
  | success (body : String)
  | thrown (msg : String)
  | pending
deriving DecidableEq

/-- Outcome of a `tmdbFetch` call together with the sequence of delays
(milliseconds slept before each rate-limit retry, in order). -/
structure FetchTrace where
  outcome : FetchOutcome
  waits : List Nat
deriving DecidableEq

/-- Delay before a rate-limit retry, in milliseconds:
`parseInt(retryAfter) * 1000` when the header is present, else the fixed
default 1000. -/
def retryWaitMs : Option Nat → Nat
  | some s => s * 1000
  | none => 1000

/-- Embedding of `tmdbFetch`'s response handling, run against the sequence
of responses the provider successively returns to this call and its
retries.  On `response.ok` the body is returned; on a 429 the call sleeps
`retryWaitMs` and reissues the same request (consuming the next response);
on any other non-ok status it throws `TMDB API Error: ...`. -/
def tmdbFetch : List TmdbResponse → FetchTrace
  | [] => ⟨.pending, []⟩
  | .ok b :: _ => ⟨.success b, []⟩
  | .httpError m :: _ => ⟨.thrown ("TMDB API Error: " ++ m), []⟩
  | .rateLimited h :: rest =>
    let r := tmdbFetch rest
    ⟨r.outcome, retryWaitMs h :: r.waits⟩

/-- JS media-type tag of a unified candidate. -/
inductive MediaType where
  | movie
  | tv
deriving DecidableEq

/-- Raw TMDB search-result row (`any`-typed in the source); only the fields
the pipeline reads are modelled, all optional since the payload is
untyped JSON. -/
structure RawRow where
  id : Nat := 0
  media_type : Option String := none
  title : Option String := none
  original_title : Option String := none
  name : Option String := none
  original_name : Option String := none
  release_date : Option String := none
  first_air_date : Option String := none
  popularity : Option ℝ := none
  vote_count : Option ℝ := none

/-- Unified candidate structure for all media types (type `Candidate` of the
TMDB service). -/
structure Candidate where
  id : Nat
  media_type : MediaType
  title : String
  date : Option String
  popularity : Option ℝ
  vote_count : Option ℝ

/-- The primary display-title field of a raw row for the given media type
(`title` for movies, `name` for TV). -/
def primaryTitleField : MediaType → RawRow → Option String
  | .movie, r => r.title
  | .tv, r => r.name

/-- The alternate original-title field of a raw row for the given media
type (`original_title` for movies, `original_name` for TV). -/
def altTitleField : MediaType → RawRow → Option String
  | .movie, r => r.original_title
  | .tv, r => r.original_name

/-- The unified title: `result.title || result.original_title || ''`
(movie) resp. `result.name || result.original_name || ''` (TV). -/
def unifiedTitle (mediaType : MediaType) (result : RawRow) : String :=
  jsOrS (primaryTitleField mediaType result)
    (jsOrS (altTitleField mediaType result) "")

/-- The per-row body of `convertToCandidates` (and, with the media type
taken from the row, of `convertMultiToCandidates`). -/
def convertRow (mediaType : MediaType) (result : RawRow) : Candidate :=
  { id := result.id
    media_type := mediaType
    title := unifiedTitle mediaType result
    date := match mediaType with
      | .movie => result.release_date
      | .tv => result.first_air_date
    popularity := result.popularity
    vote_count := result.vote_count }

/-- Embedding of `convertToCandidates`. -/
def convertToCandidates (results : List RawRow) (mediaType : MediaType) :
    List Candidate :=
  results.map (convertRow mediaType)

/-- Embedding of `convertMultiToCandidates`: keep only rows whose
`media_type` is `'movie'` or `'tv'`, then apply the same unified mapping
keyed on the row's own `media_type`. -/
def convertMultiToCandidates (results : List RawRow) : List Candidate :=
  (results.filter (fun result =>
      result.media_type = some "movie" || result.media_type = some "tv")).map
    (fun result =>
      convertRow (if result.media_type = some "movie" then .movie else .tv) result)

/-- Embedding of `split(/\s+/).filter(word => word.length > 2)`.  The
char-wise `splitOnP` split agrees with the run-wise regex split after the
length filter, because their chunk lists differ only in empty chunks. -/
def wordsLongerThan2 (l : List Char) : List (List Char) :=
  (l.splitOnP isWsChar).filter (fun w => 2 < w.length)

/-- Embedding of `tWord.includes(qWord) || qWord.includes(tWord)` (mutual
substring containment of two words). -/
def wordMatches (qWord tWord : List Char) : Bool :=
  decide (qWord <:+: tWord) || decide (tWord <:+: qWord)

/-- Embedding of `calculateCandidateScore` (the enhanced scorer of the
current TMDB service): tiered text score, word-overlap bonus, extra-word
penalty, capped logarithmic popularity and vote contributions, and a
recency adjustment.  JS `number`s are embedded as `ℝ` (`Math.log10` is
`Real.logb 10`); `currentYear` models `new Date().getFullYear()`. -/
noncomputable def calculateCandidateScore (currentYear : Int)
    (candidate : Candidate) (queryTitle : String) : ℝ :=
  let query := normalizeText queryTitle
  let title := normalizeText candidate.title
  let base : ℝ :=
    if title = query then 100
    else if query.data <+: title.data then 60
    else if query.data <:+: title.data then 40
    else 0
  let queryWords := wordsLongerThan2 query.data
  let titleWords := wordsLongerThan2 title.data
  let matchingWords := queryWords.filter
    (fun qWord => titleWords.any (fun tWord => wordMatches qWord tWord))
  let wordMatchFrac : ℝ := (matchingWords.length : ℝ) / (max queryWords.length 1 : ℝ)
  let extraWords : Int := (titleWords.length : Int) - (matchingWords.length : Int)
  let popularityScore : ℝ := min 25 (Real.logb 10 (numOr0 candidate.popularity + 1) * 8)
  let voteScore : ℝ := min 35 (Real.logb 10 (numOr0 candidate.vote_count + 1) * 12)
  let recencyBonus : ℝ :=
    if strTruthy candidate.date then
      match jsGetFullYear (candidate.date.getD "") with
      | none => 0
      | some releaseYear =>
        if currentYear - releaseYear ≤ 5 then 15
        else if currentYear - releaseYear > 20 then -10
        else 0
    else 0
  base + wordMatchFrac * 30 - min 20 ((extraWords : ℝ) * 2)
    + popularityScore + voteScore + recencyBonus

/-- Embedding of `selectBestCandidate`: score all candidates, sort the
scored pairs descending by score (JS comparator `b.score - a.score` under
the ES2019 stable `Array.prototype.sort`, embedded as the stable
`mergeSort`), and return `scored[0].candidate` when `scored[0].score`
strictly exceeds the acceptance threshold 20. -/
noncomputable def selectBestCandidate (currentYear : Int)
    (candidates : List Candidate) (queryTitle : String) : Option Candidate :=
  match candidates with
  | [] => none
  | _ :: _ =>
    let scored := candidates.map (fun candidate =>
      (candidate, calculateCandidateScore currentYear candidate queryTitle))
    match scored.mergeSort (fun a b => b.2 ≤ a.2) with
    | [] => none
    | best :: _ => if best.2 > 20 then some best.1 else none

/-- First element of the list attaining the maximal score (second
component); ties keep the earlier element, matching a stable descending
sort followed by taking index 0. -/
noncomputable def firstArgmax : List (Candidate × ℝ) → Option (Candidate × ℝ)
  | [] => none
  | x :: xs =>
    match firstArgmax xs with
    | none => some x
    | some y => if y.2 ≤ x.2 then some x else some y

/-- Concrete candidate used by the closed verification instances. -/
def incCandidate : Candidate :=
  { id := 27205, media_type := .movie, title := "inception",
    date := none, popularity := none, vote_count := none }

/-- Options object (`TMDBSearchOptions`, with the optional explicit year). -/
structure SearchOptions where
  language : Option String := none
  region : Option String := none
  year : Option Nat := none
  includeAdult : Option Bool := none
deriving DecidableEq

/-- Query parameters of `/search/movie` as built by `searchMovies`. -/
structure SearchMovieParams where
  query : String
  language : String
  region : String
  include_adult : Bool
  page : Nat
  primary_release_year : Option Nat
deriving DecidableEq

/-- Query parameters of `/search/tv` as built by `searchTV`. -/
structure SearchTvParams where
  query : String
  language : String
  page : Nat
  first_air_date_year : Option Nat
deriving DecidableEq

/-- Query parameters of `/search/multi` as built by `searchMulti`. -/
structure SearchMultiParams where
  query : String
  language : String
  page : Nat
deriving DecidableEq

/-- Search payload `{ results?: RawHit[] }` (read as `results || []`). -/
structure TMDBSearchResponse where
  results : Option (List RawRow) := none

/-- External-ids record of `/movie/{id}/external_ids`. -/
structure TMDBExternalIds where
  imdb_id : Option String := none

/-- Detail payload of `/movie/{id}` resp. `/tv/{id}` with
`append_to_response=external_ids`: the direct `imdb_id` field and the
appended `external_ids` sub-record. -/
structure DetailRecord where
  imdb_id : Option String := none
  external_ids : Option TMDBExternalIds := none

/-- The TMDB remote collaborator: one oracle per endpoint, keyed by the
request parameters; an `Except.error` models a thrown/rejected fetch. -/
structure TmdbEnv where
  searchMovie : SearchMovieParams → Except String TMDBSearchResponse
  searchTv : SearchTvParams → Except String TMDBSearchResponse
  searchMulti : SearchMultiParams → Except String TMDBSearchResponse
  movieDetails : Nat → String → Except String DetailRecord
  tvDetails : Nat → String → Except String DetailRecord
  movieExternalIds : Nat → Except String TMDBExternalIds

/-- Embedding of `searchMovies` (query trimmed, first page, language and
region defaulted, optional `primary_release_year`).  `query.trim()` is
the modelled `jsTrimList`. -/
def searchMovies (env : TmdbEnv) (query : String) (options : SearchOptions) :
    Except String (List RawRow) :=
  (env.searchMovie
    { query := ⟨jsTrimList query.data⟩
      language := options.language.getD "de-DE"
      region := options.region.getD "DE"
      include_adult := options.includeAdult.getD false
      page := 1
      primary_release_year := options.year }).map
    (fun response => response.results.getD [])

/-- Embedding of `searchTV` (returns unified candidates). -/
def searchTV (env : TmdbEnv) (query : String) (language : String)
    (year : Option Nat) : Except String (List Candidate) :=
  (env.searchTv
    { query := ⟨jsTrimList query.data⟩
      language := language
      page := 1
      first_air_date_year := year }).map
    (fun response => convertToCandidates (response.results.getD []) .tv)

/-- Embedding of `searchMulti` (returns filtered unified candidates). -/
def searchMulti (env : TmdbEnv) (query : String) (language : String) :
    Except String (List Candidate) :=
  (env.searchMulti
    { query := ⟨jsTrimList query.data⟩
      language := language
      page := 1 }).map
    (fun response => convertMultiToCandidates (response.results.getD []))

/-- Embedding of `getDetailsWithImdbId` (current service): detail fetch by
media type; its internal try/catch turns every error into an empty
record. -/
def getDetailsWithImdbId (env : TmdbEnv) (candidate : Candidate)
    (language : String) : DetailRecord :=
  match candidate.media_type with
  | .movie =>
    match env.movieDetails candidate.id language with
    | .ok details => details
    | .error _ => {}
  | .tv =>
    match env.tvDetails candidate.id language with
    | .ok details => details
    | .error _ => {}

/-- Embedding of `getMovieExternalIds`. -/
def getMovieExternalIds (env : TmdbEnv) (movieId : Nat) :
    Except String TMDBExternalIds :=
  env.movieExternalIds movieId

/-- Case-insensitive match of one regex alternative `article` followed by
`\s+` at the start of `l`; on success the matched part is removed
(greedy whitespace). -/
def matchArticle (article : List Char) (l : List Char) : Option (List Char) :=
  if (l.take article.length).map jsToLower = article
      && (l.drop article.length).head?.any isWsChar then
    some ((l.drop article.length).dropWhile isWsChar)
  else none

/-- `replace(/^(alt1|alt2|...)\s+/i, '')`: the regex alternatives are
tried in order; when none matches the string is unchanged. -/
def replaceArticleRegex (articles : List String) (l : List Char) : List Char :=
  match articles with
  | [] => l
  | art :: rest =>
    match matchArticle art.data l with
    | some r => r
    | none => replaceArticleRegex rest l

/-- Embedding of `createSearchVariations`: the query itself, the query
without a leading article (`the|a|an|der|die|das`), and the normalized
form when it differs from the lower-cased query; first-occurrence
deduplicated. -/
def createSearchVariations (query : String) : List String :=
  let withoutArticle : String :=
    ⟨replaceArticleRegex ["the", "a", "an", "der", "die", "das"] query.data⟩
  let variations := [query]
  let variations :=
    if withoutArticle ≠ query then variations ++ [withoutArticle] else variations
  let normalized := normalizeText query
  let variations :=
    if normalized ≠ (⟨query.data.map jsToLower⟩ : String) then
      variations ++ [normalized]
    else variations
  jsDedup variations

/-- Embedding of `generateQueryVariations`: the normalized form, the
normalized form with whitespace runs replaced by `', '`, `' - '` and
`': '`, and the normalized form without a leading article
(`the|a|an`); first-occurrence deduplicated. -/
def generateQueryVariations (query : String) : List String :=
  let normalized := normalizeText query
  let variations : List String := [normalized,
    ⟨replaceWsRuns (", ".data) normalized.data⟩,
    ⟨replaceWsRuns (" - ".data) normalized.data⟩,
    ⟨replaceWsRuns (": ".data) normalized.data⟩]
  let withoutArticle : String := ⟨replaceArticleRegex ["the", "a", "an"] normalized.data⟩
  let variations :=
    if withoutArticle ≠ normalized then variations ++ [withoutArticle] else variations
  jsDedup variations

/-- The three search types tried by the cascade, in order. -/
inductive SearchKind where
  | movie
  | tv
  | multi
deriving DecidableEq

/-- The (language, searchType, query) combinations of `getImdbIdForTitle`'s
nested loops, in the exact order tried: languages
`['de-DE', 'en-US']` outermost, then search types movie/tv/multi, then
`allQueries = [...new Set([...createSearchVariations(title),
...generateQueryVariations(title)])]`. -/
def cascadeCombos (title : String) : List (String × SearchKind × String) :=
  let allQueries :=
    jsDedup (createSearchVariations title ++ generateQueryVariations title)
  (["de-DE", "en-US"]).flatMap (fun lang =>
    ([SearchKind.movie, SearchKind.tv, SearchKind.multi]).flatMap (fun searchType =>
      allQueries.map (fun query => (lang, searchType, query))))

/-- Candidate fetch of one combination: movie search results are converted
to candidates, tv and multi searches already return candidates. -/
def fetchCandidates (env : TmdbEnv) (options : SearchOptions) :
    String × SearchKind × String → Except String (List Candidate)
  | (lang, .movie, query) =>
    (searchMovies env query { options with language := some lang }).map
      (fun results => convertToCandidates results .movie)
  | (lang, .tv, query) => searchTV env query lang options.year
  | (lang, .multi, query) => searchMulti env query lang

/-- The imdb-id fallback chain run for a selected best candidate:
`details.imdb_id ?? details.external_ids?.imdb_id ?? null`; when that is
falsy and the candidate is a movie, the separate external-ids endpoint
(a thrown error keeps the previous value); when still falsy in the
primary language `de-DE`, a detail retry in `en-US`. -/
def resolveImdbId (env : TmdbEnv) (lang : String) (best : Candidate) : Option String :=
  let details := getDetailsWithImdbId env best lang
  let imdbId := jsNullish details.imdb_id (details.external_ids.bind (fun e => e.imdb_id))
  let imdbId2 :=
    if strTruthy imdbId = false ∧ best.media_type = MediaType.movie then
      match getMovieExternalIds env best.id with
      | .ok externalIds => externalIds.imdb_id
      | .error _ => imdbId
    else imdbId
  if strTruthy imdbId2 = false ∧ lang = "de-DE" then
    let englishDetails := getDetailsWithImdbId env best "en-US"
    jsNullish englishDetails.imdb_id
      (englishDetails.external_ids.bind (fun e => e.imdb_id))
  else imdbId2

/-- `MovieWithImdbId` result record of the cascade. -/
structure MovieWithImdbId where
  title : String
  imdbId : String
  tmdbId : Nat
  confidence : String
  year : Option Int
deriving DecidableEq

/-- Tail of the cascade's loop body for a selected best candidate: run the
imdb-id fallback chain; when the id is truthy build the
`MovieWithImdbId` (confidence tiers 80/40 from the recomputed match
score, year from the candidate's date when truthy), else yield `none`
so the cascade continues. -/
noncomputable def buildResult (env : TmdbEnv) (currentYear : Int)
    (normalizedTitle : String) (lang : String) (bestCandidate : Candidate) :
    Option MovieWithImdbId :=
  let imdbId := resolveImdbId env lang bestCandidate
  if strTruthy imdbId then
    let matchScore := calculateCandidateScore currentYear bestCandidate normalizedTitle
    some { title := bestCandidate.title
           imdbId := imdbId.getD ""
           tmdbId := bestCandidate.id
           confidence :=
             if matchScore ≥ 80 then "high"
             else if matchScore ≥ 40 then "medium" else "low"
           year :=
             if strTruthy bestCandidate.date then
               jsGetFullYear (bestCandidate.date.getD "")
             else none }
  else none

/-- One iteration of the cascade's innermost loop body: fetch candidates,
select the best and build the result.  A fetch error (the loop body's
try/catch) and a missing or unusable best candidate produce `none`, on
which the cascade continues with the next combination. -/
noncomputable def runAttempt (env : TmdbEnv) (currentYear : Int)
    (options : SearchOptions) (normalizedTitle : String) :
    String × SearchKind × String → Option MovieWithImdbId :=
  fun combo =>
    match fetchCandidates env options combo with
    | .error _ => none
    | .ok candidates =>
      match selectBestCandidate currentYear candidates normalizedTitle with
      | none => none
      | some bestCandidate =>
        buildResult env currentYear normalizedTitle combo.1 bestCandidate

/-- Embedding of `getImdbIdForTitle`: the nested
language × searchType × query loops with early return on the first
usable result are exactly `findSome?` over `cascadeCombos` in loop
order.  Every remote failure is caught inside the loop body, so the
function is total: exhaustion yields `none`, never a thrown error. -/
noncomputable def getImdbIdForTitle (env : TmdbEnv) (currentYear : Int)
    (title : String) (options : SearchOptions) : Option MovieWithImdbId :=
  (cascadeCombos title).findSome?
    (runAttempt env currentYear options (normalizeText title))

/-- Embedding of `getImdbIdsForTitles`: slices of `batchSize` 3 resolved
per slice, null results filtered, slice results appended in order. -/
noncomputable def getImdbIdsForTitles (env : TmdbEnv) (currentYear : Int)
    (options : SearchOptions) : List String → List MovieWithImdbId
  | [] => []
  | t :: rest =>
    (((t :: rest).take 3).map
        (fun title => getImdbIdForTitle env currentYear title options)).filterMap id
      ++ getImdbIdsForTitles env currentYear options ((t :: rest).drop 3)
termination_by l => l.length
decreasing_by simp [List.length_drop]; omega

/-- Environment in which every remote call fails with a transport error. -/
def envAllFail : TmdbEnv :=
  { searchMovie := fun _ => .error "network"
    searchTv := fun _ => .error "network"
    searchMulti := fun _ => .error "network"
    movieDetails := fun _ _ => .error "network"
    tvDetails := fun _ _ => .error "network"
    movieExternalIds := fun _ => .error "network" }

/-- The raw search row behind `incCandidate`. -/
def incRow : RawRow :=
  { id := 27205, title := some "inception" }

/-- Environment whose movie search answers the query `"inception"` with
one row and whose detail endpoint provides that row's IMDb id; every
other search finds nothing and the remaining endpoints fail. -/
def envInception : TmdbEnv :=
  { searchMovie := fun params =>
      if params.query = "inception" then .ok { results := some [incRow] }
      else .ok { results := some [] }
    searchTv := fun _ => .ok { results := some [] }
    searchMulti := fun _ => .ok { results := some [] }
    movieDetails := fun id _ =>
      if id = 27205 then .ok { imdb_id := some "tt1375666" } else .error "404"
    tvDetails := fun _ _ => .error "404"
    movieExternalIds := fun _ => .error "404" }

/-- The resolution result produced by `envInception` for `"inception"`. -/
def rInc : MovieWithImdbId :=
  { title := "inception", imdbId := "tt1375666", tmdbId := 27205,
    confidence := "high", year := none }

end TmdbService

namespace OmdbService

open Js

/-- OMDb payload (untyped JSON); the fields the service reads. -/
structure OmdbMovieResponse where
  Response : Option String := none
  Error : Option String := none
  Title : Option String := none
  imdbRating : Option String := none
  imdbVotes : Option String := none

/-- Transport-level result of the single OMDb HTTP call of a lookup. -/
inductive OmdbHttp where
  | transportError (status : Nat)
  | payload (data : OmdbMovieResponse)

/-- The OMDb remote collaborator, keyed by the IMDb id passed as the `i`
query parameter. -/
structure OmdbEnv where
  lookup : String → OmdbHttp

/-- Embedding of `omdbFetch` for by-id lookups: a non-ok HTTP status
throws, a payload with `Response === 'False'` throws the OMDb-reported
error, otherwise the payload is returned. -/
def omdbFetch (env : OmdbEnv) (endpoint : String) : Except String OmdbMovieResponse :=
  match env.lookup endpoint with
  | .transportError s => .error ("OMDb API Error: " ++ toString s)
  | .payload data =>
    if data.Response = some "False" then
      .error ("OMDb API Error: " ++ data.Error.getD "undefined")
    else .ok data

/-- Embedding of `extractImdbRating`: absent/empty/`'N/A'` rating gives
null; otherwise the parsed value, kept only if finite. -/
def extractImdbRating (movieData : OmdbMovieResponse) : Option ℚ :=
  if !strTruthy movieData.imdbRating || movieData.imdbRating = some "N/A" then none
  else jsParseFloat (movieData.imdbRating.getD "")

/-- Embedding of `extractImdbVotes`. -/
def extractImdbVotes (movieData : OmdbMovieResponse) : Option String :=
  if !strTruthy movieData.imdbVotes || movieData.imdbVotes = some "N/A" then none
  else movieData.imdbVotes

/-- The `MovieRating` record produced by the rating enricher. -/
structure MovieRating where
  imdbId : String
  rating : Option ℚ
  votes : Option String
  source : String
deriving DecidableEq

/-- Embedding of `getMovieByImdbId`. -/
def getMovieByImdbId (env : OmdbEnv) (imdbId : String) :
    Except String OmdbMovieResponse :=
  omdbFetch env imdbId

/-- Embedding of `getImdbRatingByImdbId`: the surrounding try/catch turns
every thrown error into a null result. -/
def getImdbRatingByImdbId (env : OmdbEnv) (imdbId : String) : Option MovieRating :=
  match getMovieByImdbId env imdbId with
  | .error _ => none
  | .ok movieData =>
    some { imdbId := imdbId
           rating := extractImdbRating movieData
           votes := extractImdbVotes movieData
           source := "omdb" }

/-- Embedding of `getImdbRatingsForIds`: process in slices of `batchSize`
5, resolve each slice member, keep the non-null results in order. -/
def getImdbRatingsForIds (env : OmdbEnv) : List String → List MovieRating
  | [] => []
  | i :: rest =>
    (((i :: rest).take 5).map (getImdbRatingByImdbId env)).filterMap id
      ++ getImdbRatingsForIds env ((i :: rest).drop 5)
termination_by l => l.length
decreasing_by simp [List.length_drop]; omega

end OmdbService

namespace TmdbServiceLegacy

open Js

/-- Embedding of `normalizeText` from the legacy TMDB service
(strict-ASCII-folding profile): lower-case, `normalize('NFKD')`, delete
combining marks `[̀-ͯ]`, replace every char outside `[\w\s]`
by a space, collapse whitespace, trim. -/
def normalizeText (text : String) : String :=
  ⟨jsTrimList (collapseWs
    (((nfdNormalize (text.data.map jsToLower)).filter
        (fun c => !isCombiningMark c)).map
      (fun c => if isAsciiWordChar c || isWsChar c then c else ' ')))⟩

end TmdbServiceLegacy

namespace Js

/-- Two adjacent characters are not both whitespace (the shape left by
whitespace collapsing). -/
def NoWsPair (a b : Char) : Prop := ¬(isWsChar a = true ∧ isWsChar b = true)

/-- The head of the list, when it exists, is not whitespace. -/
def HeadNotWs (l : List Char) : Prop :=
  ∀ x, l.head? = some x → isWsChar x = false

end Js

namespace OcrService

open Js

/-- Modelled from the spec: `extractYearFromTitle` is imported from the OCR
service module by every caller, but its definition is absent from the
sources (`src/services/ocrService.ts` defines only the OCR pipeline and
`cleanMovieTitle`).  Following §4.2 of the specification, the scanner
walks the title consuming maximal decimal-digit runs and succeeds on the
first run of exactly four digits whose value is a plausible release year
(bounded range 1900 … `currentYear + 1`); a digit run of any other length
— part of a longer number, or a short numeral like the `9` of
`District 9` — is never extracted.  `seen` accumulates the consumed
prefix in reverse; on success the scanner returns the prefix, the year
value and the remaining suffix. -/
def scanYear (currentYear : Nat) : List Char → List Char → Option (List Char × Nat × List Char)
  | _, [] => none
  | seen, c :: cs =>
    if c.isDigit then
      let run := c :: cs.takeWhile Char.isDigit
      let rest := cs.dropWhile Char.isDigit
      if run.length = 4 && (1900 ≤ digitsToNat run && digitsToNat run ≤ currentYear + 1) then
        some (seen.reverse, digitsToNat run, rest)
      else scanYear currentYear (run.reverse ++ seen) rest
    else scanYear currentYear (c :: seen) cs
termination_by _ l => l.length
decreasing_by
  · simp only [List.length_cons]
    have := (List.dropWhile_sublist (l := cs) Char.isDigit).length_le
    omega
  · simp

/-- Modelled from the spec: removal of the extracted year token's
surrounding punctuation — an enclosing parenthesis pair is dropped, the
whitespace around the removal point is re-collapsed and the remainder
trimmed. -/
def stripYearContext (before after : List Char) : List Char :=
  let b := match before.reverse with
    | '(' :: r => r.reverse
    | _ => before
  let a := match after with
    | ')' :: r => r
    | _ => after
  jsTrimList (collapseWs (b ++ a))

/-- Modelled from the spec: `extractYear(title) → { cleanTitle, year? }`.
When no plausible year token exists the original title is returned
unchanged with an absent year. -/
def extractYearFromTitle (currentYear : Nat) (title : String) : String × Option Nat :=
  match scanYear currentYear [] title.data with
  | none => (title, none)
  | some (before, y, after) => (⟨stripYearContext before after⟩, some y)

/-- A maximal four-digit run sits at position `i` of `l` and its value is a
plausible year: four digits, neither extended by a digit on the left nor
on the right, value within 1900 … `currentYear + 1`. -/
def yearTokenAt (currentYear : Nat) (l : List Char) (i : Nat) : Bool :=
  let run := (l.drop i).take 4
  run.length = 4 && run.all Char.isDigit &&
    ((l.take i).getLast?.all fun c => !c.isDigit) &&
    ((l.drop (i + 4)).head?.all fun c => !c.isDigit) &&
    (1900 ≤ digitsToNat run && digitsToNat run ≤ currentYear + 1)

/-- Some position of `l` carries a plausible year token. -/
def hasYearToken (currentYear : Nat) (l : List Char) : Bool :=
  (List.range l.length).any (yearTokenAt currentYear l)

end OcrService

/-! ### Character-table facts and whitespace lemmas -/

namespace Js

lemma lower_val_not_key : ∀ p ∈ lowerPairs, ∀ q ∈ lowerPairs, q.1 ≠ p.2 := by decide

lemma nfd_out_not_nfd_key : ∀ p ∈ nfdPairs, ∀ d ∈ p.2, ∀ q ∈ nfdPairs, q.1 ≠ d := by decide

lemma nfd_out_not_lower_key : ∀ p ∈ nfdPairs, ∀ d ∈ p.2, ∀ q ∈ lowerPairs, q.1 ≠ d := by decide

lemma jsToLower_of_not_key {a : Char}
    (h : lowerPairs.find? (fun p => p.1 = a) = none) : jsToLower a = a := by
  simp [jsToLower, h]

lemma nfdDecompose_of_not_key {a : Char}
    (h : nfdPairs.find? (fun p => p.1 = a) = none) : nfdDecompose a = [a] := by
  simp [nfdDecompose, h]

lemma jsToLower_idem (c : Char) : jsToLower (jsToLower c) = jsToLower c := by
  rcases h : lowerPairs.find? (fun p => p.1 = c) with _ | p
  · rw [jsToLower_of_not_key h]
    exact jsToLower_of_not_key h
  · have hp : p ∈ lowerPairs := List.mem_of_find?_eq_some h
    have h2 : jsToLower c = p.2 := by simp [jsToLower, h]
    rw [h2]
    apply jsToLower_of_not_key
    rw [List.find?_eq_none]
    intro q hq
    simpa using lower_val_not_key p hp q hq

lemma nfdDecompose_fixed_of_mem {c d : Char} (hd : d ∈ nfdDecompose c) :
    nfdDecompose d = [d] := by
  rcases h : nfdPairs.find? (fun p => p.1 = c) with _ | p
  · rw [nfdDecompose_of_not_key h] at hd
    simp at hd
    subst hd
    exact nfdDecompose_of_not_key h
  · have hp : p ∈ nfdPairs := List.mem_of_find?_eq_some h
    have h2 : nfdDecompose c = p.2 := by simp [nfdDecompose, h]
    rw [h2] at hd
    apply nfdDecompose_of_not_key
    rw [List.find?_eq_none]
    intro q hq
    simpa using nfd_out_not_nfd_key p hp d hd q hq

lemma jsToLower_fixed_of_mem_decompose {c d : Char} (hc : jsToLower c = c)
    (hd : d ∈ nfdDecompose c) : jsToLower d = d := by
  rcases h : nfdPairs.find? (fun p => p.1 = c) with _ | p
  · rw [nfdDecompose_of_not_key h] at hd
    simp at hd
    subst hd
    exact hc
  · have hp : p ∈ nfdPairs := List.mem_of_find?_eq_some h
    have h2 : nfdDecompose c = p.2 := by simp [nfdDecompose, h]
    rw [h2] at hd
    apply jsToLower_of_not_key
    rw [List.find?_eq_none]
    intro q hq
    simpa using nfd_out_not_lower_key p hp d hd q hq

lemma mem_replaceWsRunsAux {sep : List Char} :
    ∀ {b : Bool} {l : List Char} {c : Char}, c ∈ replaceWsRunsAux sep b l →
      c ∈ sep ∨ (c ∈ l ∧ isWsChar c = false) := by
  intro b l
  induction l generalizing b with
  | nil => intro c hc; cases b <;> simp [replaceWsRunsAux] at hc
  | cons d cs ih =>
    intro c hc
    by_cases hd : isWsChar d
    · cases b with
      | true =>
        rw [show replaceWsRunsAux sep true (d :: cs) = replaceWsRunsAux sep true cs by
          simp [replaceWsRunsAux, hd]] at hc
        rcases ih hc with h | ⟨h1, h2⟩
        · exact Or.inl h
        · exact Or.inr ⟨List.mem_cons_of_mem _ h1, h2⟩
      | false =>
        rw [show replaceWsRunsAux sep false (d :: cs) = sep ++ replaceWsRunsAux sep true cs by
          simp [replaceWsRunsAux, hd]] at hc
        rcases List.mem_append.mp hc with h | h
        · exact Or.inl h
        · rcases ih h with h | ⟨h1, h2⟩
          · exact Or.inl h
          · exact Or.inr ⟨List.mem_cons_of_mem _ h1, h2⟩
    · have hc' : c ∈ d :: replaceWsRunsAux sep false cs := by
        cases b <;> rw [show replaceWsRunsAux sep _ (d :: cs)
            = d :: replaceWsRunsAux sep false cs by simp [replaceWsRunsAux, hd]] at hc <;>
          exact hc
      rcases List.mem_cons.mp hc' with h | h
      · subst h
        exact Or.inr ⟨List.mem_cons_self _ _, by simpa using hd⟩
      · rcases ih h with h | ⟨h1, h2⟩
        · exact Or.inl h
        · exact Or.inr ⟨List.mem_cons_of_mem _ h1, h2⟩

lemma headNotWs_replaceWsRunsAux_true (l : List Char) :
    HeadNotWs (replaceWsRunsAux [' '] true l) := by
  induction l with
  | nil => intro x hx; simp [replaceWsRunsAux] at hx
  | cons d cs ih =>
    by_cases hd : isWsChar d
    · intro x hx
      rw [show replaceWsRunsAux [' '] true (d :: cs) = replaceWsRunsAux [' '] true cs by
        simp [replaceWsRunsAux, hd]] at hx
      exact ih x hx
    · intro x hx
      rw [show replaceWsRunsAux [' '] true (d :: cs)
          = d :: replaceWsRunsAux [' '] false cs by simp [replaceWsRunsAux, hd]] at hx
      simp only [List.head?_cons, Option.some.injEq] at hx
      subst hx
      simpa using hd

lemma chain'_replaceWsRunsAux (l : List Char) :
    List.Chain' NoWsPair (replaceWsRunsAux [' '] false l) ∧
      List.Chain' NoWsPair (replaceWsRunsAux [' '] true l) := by
  induction l with
  | nil => constructor <;> simp [replaceWsRunsAux]
  | cons d cs ih =>
    by_cases hd : isWsChar d
    · constructor
      · rw [show replaceWsRunsAux [' '] false (d :: cs)
            = ' ' :: replaceWsRunsAux [' '] true cs by simp [replaceWsRunsAux, hd]]
        rw [List.chain'_cons']
        refine ⟨?_, ih.2⟩
        intro y hy
        have := headNotWs_replaceWsRunsAux_true cs y hy
        exact fun hpair => by simp [this] at hpair
      · rw [show replaceWsRunsAux [' '] true (d :: cs) = replaceWsRunsAux [' '] true cs by
          simp [replaceWsRunsAux, hd]]
        exact ih.2
    · constructor <;>
      · rw [show replaceWsRunsAux [' '] _ (d :: cs)
            = d :: replaceWsRunsAux [' '] false cs by simp [replaceWsRunsAux, hd]]
        rw [List.chain'_cons']
        refine ⟨?_, ih.1⟩
        intro y hy
        exact fun hpair => by simp [hpair.1] at hd

lemma replaceWsRunsAux_fixed :
    ∀ l : List Char, List.Chain' NoWsPair l → (∀ c ∈ l, isWsChar c → c = ' ') →
      ∀ b : Bool, (b = true → HeadNotWs l) → replaceWsRunsAux [' '] b l = l := by
  intro l
  induction l with
  | nil => intro _ _ b _; cases b <;> rfl
  | cons d cs ih =>
    intro hchain hsp b hb
    by_cases hd : isWsChar d
    · cases b with
      | true =>
        have := hb rfl d (by simp)
        simp [hd] at this
      | false =>
        have hd' : d = ' ' := hsp d (by simp) hd
        have hhead : HeadNotWs cs := by
          intro x hx
          have := (List.chain'_cons'.mp hchain).1 x hx
          by_contra hxx
          exact this ⟨hd, by simpa using hxx⟩
        rw [show replaceWsRunsAux [' '] false (d :: cs)
            = ' ' :: replaceWsRunsAux [' '] true cs by simp [replaceWsRunsAux, hd]]
        rw [ih (List.chain'_cons'.mp hchain).2
          (fun c hc => hsp c (List.mem_cons_of_mem _ hc)) true (fun _ => hhead)]
        rw [hd']
    · rw [show replaceWsRunsAux [' '] b (d :: cs)
          = d :: replaceWsRunsAux [' '] false cs by cases b <;> simp [replaceWsRunsAux, hd]]
      rw [ih (List.chain'_cons'.mp hchain).2
        (fun c hc => hsp c (List.mem_cons_of_mem _ hc)) false (by simp)]

lemma headNotWs_dropWhile (p : Char → Bool) (l : List Char) :
    ∀ x, (l.dropWhile p).head? = some x → p x = false := by
  induction l with
  | nil => intro x hx; simp at hx
  | cons d cs ih =>
    intro x hx
    rw [List.dropWhile_cons] at hx
    by_cases hd : p d
    · rw [if_pos hd] at hx
      exact ih x hx
    · rw [if_neg hd] at hx
      simp only [List.head?_cons, Option.some.injEq] at hx
      rw [← hx]
      simpa using hd

lemma dropWhile_eq_self_of_head {p : Char → Bool} {l : List Char}
    (h : ∀ x, l.head? = some x → p x = false) : l.dropWhile p = l := by
  cases l with
  | nil => rfl
  | cons d cs =>
    rw [List.dropWhile_cons, if_neg]
    simp [h d rfl]

lemma noWsPair_symm {a b : Char} (h : NoWsPair a b) : NoWsPair b a :=
  fun hp => h ⟨hp.2, hp.1⟩

lemma chain'_noWsPair_reverse {l : List Char} (h : List.Chain' NoWsPair l) :
    List.Chain' NoWsPair l.reverse := by
  rw [List.chain'_reverse]
  exact h.imp (fun _ _ hab => noWsPair_symm hab)

lemma chain'_noWsPair_jsTrimList {l : List Char} (h : List.Chain' NoWsPair l) :
    List.Chain' NoWsPair (jsTrimList l) := by
  unfold jsTrimList
  apply chain'_noWsPair_reverse
  apply List.Chain'.suffix _ (List.dropWhile_suffix _)
  apply chain'_noWsPair_reverse
  exact List.Chain'.suffix h (List.dropWhile_suffix _)

lemma jsTrimList_part_of (l : List Char) : jsTrimList l <:+: l := by
  have h1 : l.dropWhile isWsChar <:+ l := List.dropWhile_suffix _
  have h2 : jsTrimList l <+: l.dropWhile isWsChar := by
    rw [← List.reverse_suffix]
    unfold jsTrimList
    rw [List.reverse_reverse]
    exact List.dropWhile_suffix _
  obtain ⟨t, ht⟩ := h2
  obtain ⟨s, hs⟩ := h1
  exact ⟨s, t, by rw [List.append_assoc, ht, hs]⟩

lemma jsTrimList_headNotWs (l : List Char) : HeadNotWs (jsTrimList l) := by
  intro x hx
  have hne : jsTrimList l ≠ [] := by
    intro h
    rw [h] at hx
    simp at hx
  have hpre : jsTrimList l <+: l.dropWhile isWsChar := by
    rw [← List.reverse_suffix]
    unfold jsTrimList
    rw [List.reverse_reverse]
    exact List.dropWhile_suffix _
  have hdne : l.dropWhile isWsChar ≠ [] := by
    intro h
    rcases hpre with ⟨t, ht⟩
    rw [h] at ht
    rcases List.append_eq_nil.mp ht with ⟨h1, _⟩
    exact hne h1
  have := hpre.head hne
  apply headNotWs_dropWhile isWsChar l
  rw [List.head?_eq_head hdne, ← this, ← List.head?_eq_head hne]
  exact hx

lemma jsTrimList_reverse_headNotWs (l : List Char) :
    HeadNotWs (jsTrimList l).reverse := by
  intro x hx
  unfold jsTrimList at hx
  rw [List.reverse_reverse] at hx
  exact headNotWs_dropWhile isWsChar _ x hx

lemma jsTrimList_fixed {l : List Char} (h1 : HeadNotWs l)
    (h2 : HeadNotWs l.reverse) : jsTrimList l = l := by
  unfold jsTrimList
  rw [dropWhile_eq_self_of_head h1, dropWhile_eq_self_of_head h2,
    List.reverse_reverse]

lemma flatMap_eq_self {f : Char → List Char} :
    ∀ {l : List Char}, (∀ c ∈ l, f c = [c]) → l.flatMap f = l := by
  intro l
  induction l with
  | nil => intro _; rfl
  | cons d cs ih =>
    intro h
    rw [List.flatMap_cons, h d (by simp), ih (fun c hc => h c (List.mem_cons_of_mem _ hc))]
    rfl

lemma map_eq_self {f : Char → Char} :
    ∀ {l : List Char}, (∀ c ∈ l, f c = c) → l.map f = l := by
  intro l
  induction l with
  | nil => intro _; rfl
  | cons d cs ih =>
    intro h
    rw [List.map_cons, h d (by simp), ih (fun c hc => h c (List.mem_cons_of_mem _ hc))]

lemma wordOrWs_not_combining {c : Char}
    (h : (isAsciiWordChar c || isWsChar c) = true) : isCombiningMark c = false := by
  have h' : isAsciiWordChar c = true ∨ isWsChar c = true := by simpa using h
  rcases h' with h | h
  · rw [Bool.eq_false_iff]
    intro htrue
    simp only [isCombiningMark, Bool.and_eq_true, decide_eq_true_eq] at htrue
    simp only [isAsciiWordChar, Bool.or_eq_true, Bool.and_eq_true,
      decide_eq_true_eq] at h
    omega
  · simp only [isWsChar, Bool.or_eq_true, decide_eq_true_eq] at h
    rcases h with ⟨⟨⟨⟨h | h⟩ | h⟩ | h⟩ | h⟩ | h <;> subst h <;> decide

end Js

namespace TmdbService

open Js

lemma mem_normalizeText_data {s : String} {c : Char}
    (hc : c ∈ (normalizeText s).data) :
    jsToLower c = c ∧ nfdDecompose c = [c] ∧
      (isLetterP c || isDigitP c || isWsChar c) = true ∧
      (isWsChar c = true → c = ' ') := by
  have hc1 : c ∈ collapseWs ((nfdNormalize (s.data.map jsToLower)).map
      (fun c => if isLetterP c || isDigitP c || isWsChar c then c else ' ')) :=
    (jsTrimList_part_of _).subset hc
  have hc2 : c ∈ replaceWsRunsAux [' '] false
      ((nfdNormalize (s.data.map jsToLower)).map
        (fun c => if isLetterP c || isDigitP c || isWsChar c then c else ' ')) := hc1
  rcases mem_replaceWsRunsAux hc2 with h | ⟨hz, hnw⟩
  · have hcsp : c = ' ' := by simpa using h
    subst hcsp
    refine ⟨by decide, by decide, by decide, fun _ => rfl⟩
  · rcases List.mem_map.mp hz with ⟨c', hc', heq⟩
    by_cases hk : (isLetterP c' || isDigitP c' || isWsChar c') = true
    · rw [if_pos hk] at heq
      subst heq
      rcases List.mem_flatMap.mp hc' with ⟨c₀, hc₀, hdec⟩
      rcases List.mem_map.mp hc₀ with ⟨c₁, _, hlow⟩
      have hfix : jsToLower c₀ = c₀ := by rw [← hlow]; exact jsToLower_idem c₁
      refine ⟨jsToLower_fixed_of_mem_decompose hfix hdec,
        nfdDecompose_fixed_of_mem hdec, hk, fun hws => ?_⟩
      rw [hws] at hnw
      cases hnw
    · rw [if_neg hk] at heq
      subst heq
      exact absurd hnw (by decide)

lemma normalizeText_idem_current (s : String) :
    normalizeText (normalizeText s) = normalizeText s := by
  have hfacts := fun c (hc : c ∈ (normalizeText s).data) => mem_normalizeText_data hc
  have h1 : (normalizeText s).data.map jsToLower = (normalizeText s).data :=
    map_eq_self (fun c hc => (hfacts c hc).1)
  have h2 : nfdNormalize (normalizeText s).data = (normalizeText s).data :=
    flatMap_eq_self (fun c hc => (hfacts c hc).2.1)
  have h3 : (normalizeText s).data.map
      (fun c => if isLetterP c || isDigitP c || isWsChar c then c else ' ')
        = (normalizeText s).data :=
    map_eq_self (fun c hc => if_pos (hfacts c hc).2.2.1)
  have hchain : List.Chain' NoWsPair (normalizeText s).data :=
    chain'_noWsPair_jsTrimList (chain'_replaceWsRunsAux _).1
  have h4 : collapseWs (normalizeText s).data = (normalizeText s).data :=
    replaceWsRunsAux_fixed _ hchain (fun c hc hws => (hfacts c hc).2.2.2 hws) false (by simp)
  have h5 : jsTrimList (normalizeText s).data = (normalizeText s).data :=
    jsTrimList_fixed (jsTrimList_headNotWs _) (jsTrimList_reverse_headNotWs _)
  show (⟨jsTrimList (collapseWs ((nfdNormalize ((normalizeText s).data.map jsToLower)).map
    (fun c => if isLetterP c || isDigitP c || isWsChar c then c else ' ')))⟩ : String)
      = normalizeText s
  rw [h1, h2, h3, h4, h5]

end TmdbService

namespace TmdbServiceLegacy

open Js

lemma mem_normalizeText_legacy_data {s : String} {c : Char}
    (hc : c ∈ (normalizeText s).data) :
    jsToLower c = c ∧ nfdDecompose c = [c] ∧
      (isAsciiWordChar c || isWsChar c) = true ∧
      (isWsChar c = true → c = ' ') := by
  have hc1 : c ∈ collapseWs (((nfdNormalize (s.data.map jsToLower)).filter
      (fun c => !isCombiningMark c)).map
        (fun c => if isAsciiWordChar c || isWsChar c then c else ' ')) :=
    (jsTrimList_part_of _).subset hc
  have hc2 : c ∈ replaceWsRunsAux [' '] false (((nfdNormalize (s.data.map jsToLower)).filter
      (fun c => !isCombiningMark c)).map
        (fun c => if isAsciiWordChar c || isWsChar c then c else ' ')) := hc1
  rcases mem_replaceWsRunsAux hc2 with h | ⟨hz, hnw⟩
  · have hcsp : c = ' ' := by simpa using h
    subst hcsp
    refine ⟨by decide, by decide, by decide, fun _ => rfl⟩
  · rcases List.mem_map.mp hz with ⟨c', hc', heq⟩
    by_cases hk : (isAsciiWordChar c' || isWsChar c') = true
    · rw [if_pos hk] at heq
      subst heq
      have hc'' := List.mem_of_mem_filter hc'
      rcases List.mem_flatMap.mp hc'' with ⟨c₀, hc₀, hdec⟩
      rcases List.mem_map.mp hc₀ with ⟨c₁, _, hlow⟩
      have hfix : jsToLower c₀ = c₀ := by rw [← hlow]; exact jsToLower_idem c₁
      refine ⟨jsToLower_fixed_of_mem_decompose hfix hdec,
        nfdDecompose_fixed_of_mem hdec, hk, fun hws => ?_⟩
      rw [hws] at hnw
      cases hnw
    · rw [if_neg hk] at heq
      subst heq
      exact absurd hnw (by decide)

lemma normalizeText_idem_legacy (s : String) :
    normalizeText (normalizeText s) = normalizeText s := by
  have hfacts := fun c (hc : c ∈ (normalizeText s).data) => mem_normalizeText_legacy_data hc
  have h1 : (normalizeText s).data.map jsToLower = (normalizeText s).data :=
    map_eq_self (fun c hc => (hfacts c hc).1)
  have h2 : nfdNormalize (normalizeText s).data = (normalizeText s).data :=
    flatMap_eq_self (fun c hc => (hfacts c hc).2.1)
  have h2f : (normalizeText s).data.filter (fun c => !isCombiningMark c)
      = (normalizeText s).data := by
    rw [List.filter_eq_self]
    intro c hc
    simpa using wordOrWs_not_combining (hfacts c hc).2.2.1
  have h3 : (normalizeText s).data.map
      (fun c => if isAsciiWordChar c || isWsChar c then c else ' ')
        = (normalizeText s).data :=
    map_eq_self (fun c hc => if_pos (hfacts c hc).2.2.1)
  have hchain : List.Chain' NoWsPair (normalizeText s).data :=
    chain'_noWsPair_jsTrimList (chain'_replaceWsRunsAux _).1
  have h4 : collapseWs (normalizeText s).data = (normalizeText s).data :=
    replaceWsRunsAux_fixed _ hchain (fun c hc hws => (hfacts c hc).2.2.2 hws) false (by simp)
  have h5 : jsTrimList (normalizeText s).data = (normalizeText s).data :=
    jsTrimList_fixed (jsTrimList_headNotWs _) (jsTrimList_reverse_headNotWs _)
  show (⟨jsTrimList (collapseWs ((((nfdNormalize ((normalizeText s).data.map jsToLower)).filter
    (fun c => !isCombiningMark c))).map
      (fun c => if isAsciiWordChar c || isWsChar c then c else ' ')))⟩ : String)
      = normalizeText s
  rw [h1, h2, h2f, h3, h4, h5]

end TmdbServiceLegacy

/-- C8: `normalize` is idempotent — `normalize(normalize(x)) == normalize(x)` for
every string `x`, in both normalization profiles: the diacritic-preserving
one (`normalizeText` of the current TMDB service) and the
strict-ASCII-folding one (`normalizeText` of the legacy TMDB service). -/
theorem normalize_idempotent_both_profiles (x : String) :
    TmdbService.normalizeText (TmdbService.normalizeText x) = TmdbService.normalizeText x ∧
      TmdbServiceLegacy.normalizeText (TmdbServiceLegacy.normalizeText x)
        = TmdbServiceLegacy.normalizeText x :=
  ⟨TmdbService.normalizeText_idem_current x, TmdbServiceLegacy.normalizeText_idem_legacy x⟩

example : TmdbService.normalizeText "  Würst! - Käse?  " = "wu rst ka se" := by decide

example : TmdbServiceLegacy.normalizeText "  Würst! - Käse?  " = "wurst kase" := by decide

/-! ### C1: rate-limit retry behaviour of the catalog fetcher -/

/-- C1 counterexample: two consecutive rate-limit responses make
`tmdbFetch` perform two delayed retries of the same request and then
succeed — the claimed bound of exactly one retry per fetch call (then
giving up) does not hold. -/
theorem tmdbFetch_two_retries_counterexample :
    ¬((TmdbService.tmdbFetch
        [.rateLimited none, .rateLimited none, .ok "r"]).waits.length ≤ 1) := by
  decide

/-- C1 amended: on every rate-limit (429) response `tmdbFetch` sleeps — for
`parseInt(Retry-After) * 1000` ms when the hint is present, else the fixed
default 1000 ms — and reissues the same request; `k` consecutive leading
rate-limit responses produce exactly `k` delayed retries followed by the
next response's outcome, so the number of retries equals the length of the
rate-limit run and is unbounded over traces rather than capped at one. -/
theorem tmdbFetch_retries_every_rate_limit (k : Nat) (hint : Option Nat) (b : String) :
    TmdbService.tmdbFetch (List.replicate k (.rateLimited hint) ++ [.ok b])
      = ⟨.success b, List.replicate k (TmdbService.retryWaitMs hint)⟩ := by
  induction k with
  | zero => rfl
  | succ n ih => simp [List.replicate_succ, TmdbService.tmdbFetch, ih]

/-! ### C3: unified candidate titles -/

namespace Js

lemma jsOrS_chain_empty_iff (a b : Option String) :
    jsOrS a (jsOrS b "") = "" ↔ strTruthy a = false ∧ strTruthy b = false := by
  rcases a with _ | s <;> rcases b with _ | t <;>
    simp [jsOrS, strTruthy] <;> split_ifs <;> simp_all

lemma jsOrS_of_truthy {a : Option String} (h : strTruthy a = true) (b : String) :
    jsOrS a b = a.getD "" := by
  rcases a with _ | s
  · simp [strTruthy] at h
  · simp only [strTruthy, ne_eq, decide_eq_true_eq] at h
    simp [jsOrS, h]

end Js

/-- C3 counterexample: a movie row with both title fields absent is mapped
to a candidate whose title is the empty string — the unified title does
not fall back to the original query string (the converters never receive
the query), so the mapped title is not always non-empty. -/
theorem convert_title_empty_counterexample :
    ¬(∀ c ∈ TmdbService.convertToCandidates [{ id := 1 }] .movie, c.title ≠ "") := by
  intro h
  exact h (TmdbService.convertRow .movie { id := 1 })
    (by simp [TmdbService.convertToCandidates]) rfl

/-- C3 amended: in both converters every row's candidate title is
`primary || original || ''`: it equals the primary field whenever that
field is non-empty, and it is empty exactly when both provider title
fields are absent or empty — in which case it is the empty string, not
the query string. -/
theorem candidate_title_fallback (mt : TmdbService.MediaType)
    (r : TmdbService.RawRow) (rs : List TmdbService.RawRow) :
    ((TmdbService.convertRow mt r).title = "" ↔
        Js.strTruthy (TmdbService.primaryTitleField mt r) = false ∧
          Js.strTruthy (TmdbService.altTitleField mt r) = false) ∧
    (Js.strTruthy (TmdbService.primaryTitleField mt r) = true →
        (TmdbService.convertRow mt r).title
          = (TmdbService.primaryTitleField mt r).getD "") ∧
    (TmdbService.convertToCandidates rs mt).map TmdbService.Candidate.title
        = rs.map (fun row => (TmdbService.convertRow mt row).title) ∧
    (TmdbService.convertMultiToCandidates rs).map TmdbService.Candidate.title
        = (rs.filter (fun row =>
              row.media_type = some "movie" || row.media_type = some "tv")).map
            (fun row => (TmdbService.convertRow
              (if row.media_type = some "movie" then .movie else .tv) row).title) := by
  refine ⟨Js.jsOrS_chain_empty_iff _ _, fun h => Js.jsOrS_of_truthy h _, ?_, ?_⟩
  · simp [TmdbService.convertToCandidates]
  · simp [TmdbService.convertMultiToCandidates]

/-- C3 witness: on a concrete row with a non-empty primary title the
candidate title is that primary field, and on a row with both fields
absent the candidate title is empty. -/
theorem candidate_title_fallback_witness :
    (TmdbService.convertRow .movie { id := 2, title := some "Blade Runner" }).title
        = "Blade Runner" ∧
      (TmdbService.convertRow .movie ({ id := 1 } : TmdbService.RawRow)).title = "" :=
  ⟨(candidate_title_fallback .movie { id := 2, title := some "Blade Runner" } []).2.1
      (by decide),
    ((candidate_title_fallback .movie ({ id := 1 } : TmdbService.RawRow) []).1).mpr
      ⟨rfl, rfl⟩⟩

/-! ### C9: rating extraction and not-found handling -/

/-- C9: the extracted numeric rating is null whenever the provider's rating
field is missing, empty, equals the `'N/A'` sentinel, or fails to parse to
a finite number (the `Option ℚ` result can carry neither `NaN` nor the
string `'N/A'`); and a provider-level not-found response
(`Response: 'False'`) makes the whole rating lookup return none instead of
raising an error. -/
theorem rating_null_cases (env : OmdbService.OmdbEnv)
    (d : OmdbService.OmdbMovieResponse) (id : String) :
    (d.imdbRating = none ∨ d.imdbRating = some "" ∨ d.imdbRating = some "N/A" ∨
        Js.jsParseFloat (d.imdbRating.getD "") = none →
      OmdbService.extractImdbRating d = none) ∧
    (env.lookup id = .payload d → d.Response = some "False" →
      OmdbService.getImdbRatingByImdbId env id = none) := by
  constructor
  · intro h
    unfold OmdbService.extractImdbRating
    rcases h with h | h | h | h
    · simp [h, Js.strTruthy]
    · simp [h, Js.strTruthy]
    · simp [h]
    · split_ifs with hg
      · rfl
      · exact h
  · intro hl hresp
    simp [OmdbService.getImdbRatingByImdbId, OmdbService.getMovieByImdbId,
      OmdbService.omdbFetch, hl, hresp]

/-- C9 witness: concrete `'N/A'` payload gives a null rating, and a
concrete not-found response gives a none lookup result. -/
theorem rating_null_cases_witness :
    OmdbService.extractImdbRating { imdbRating := some "N/A" } = none ∧
      OmdbService.getImdbRatingByImdbId
        ⟨fun _ => .payload { Response := some "False" }⟩ "tt0000001" = none :=
  ⟨(rating_null_cases ⟨fun _ => .payload {}⟩ { imdbRating := some "N/A" } "x").1
      (Or.inr (Or.inr (Or.inl rfl))),
    (rating_null_cases ⟨fun _ => .payload { Response := some "False" }⟩
      { Response := some "False" } "tt0000001").2 rfl rfl⟩

example : (OmdbService.extractImdbRating { imdbRating := some "7.5" }).isSome = true := by
  decide

example : (Js.jsParseFloat "  -3.25").isSome = true := by decide

example : Js.jsParseFloat "Infinity" = none := by decide

example : Js.jsParseFloat "N/A" = none := by decide

/-! ### C5: year extraction -/

namespace OcrService

open Js

lemma scanYear_sound (cy : Nat) :
    ∀ n (l : List Char), l.length ≤ n → ∀ (seen b : List Char) (y : Nat) (a : List Char),
      (seen.head?.all (fun c => !c.isDigit) || l.head?.all (fun c => !c.isDigit)) = true →
      scanYear cy seen l = some (b, y, a) →
      ∃ run : List Char, b ++ run ++ a = seen.reverse ++ l ∧ run.length = 4 ∧
        run.all Char.isDigit = true ∧ y = digitsToNat run ∧
        1900 ≤ y ∧ y ≤ cy + 1 ∧
        (b.getLast?.all fun c => !c.isDigit) = true ∧
        (a.head?.all fun c => !c.isDigit) = true := by
  intro n
  induction n with
  | zero =>
    intro l hl seen b y a _ hscan
    have hnil : l = [] := List.eq_nil_of_length_eq_zero (Nat.le_zero.mp hl)
    subst hnil
    simp [scanYear] at hscan
  | succ n ih =>
    intro l hl seen b y a hinv hscan
    cases l with
    | nil => simp [scanYear] at hscan
    | cons c cs =>
      simp only [scanYear] at hscan
      by_cases hc : c.isDigit
      · rw [if_pos hc] at hscan
        by_cases hcond : ((c :: cs.takeWhile Char.isDigit).length = 4 &&
            (1900 ≤ digitsToNat (c :: cs.takeWhile Char.isDigit) &&
              digitsToNat (c :: cs.takeWhile Char.isDigit) ≤ cy + 1)) = true
        · rw [if_pos hcond] at hscan
          simp only [Option.some.injEq, Prod.mk.injEq] at hscan
          obtain ⟨hb, hy, ha⟩ := hscan
          simp only [Bool.and_eq_true, decide_eq_true_eq] at hcond
          refine ⟨c :: cs.takeWhile Char.isDigit, ?_, hcond.1, ?_, hy.symm,
            hy ▸ hcond.2.1, hy ▸ hcond.2.2, ?_, ?_⟩
          · rw [← hb, ← ha]
            simp [List.takeWhile_append_dropWhile]
          · rw [List.all_eq_true]
            intro x hx
            rcases List.mem_cons.mp hx with hx | hx
            · subst hx; exact hc
            · exact List.mem_takeWhile_imp hx
          · rw [← hb, List.getLast?_reverse]
            rcases Bool.or_eq_true _ _ |>.mp hinv with h | h
            · exact h
            · simp only [List.head?_cons, Option.all_some, Bool.not_eq_true'] at h
              rw [h] at hc
              cases hc
          · rw [← ha]
            cases hh : (cs.dropWhile Char.isDigit).head? with
            | none => simp [Option.all]
            | some x =>
              have := headNotWs_dropWhile Char.isDigit cs x hh
              simp [Option.all, this]
        · rw [if_neg hcond] at hscan
          have hrest : (cs.dropWhile Char.isDigit).length ≤ n := by
            have h1 := (List.dropWhile_sublist (l := cs) Char.isDigit).length_le
            simp only [List.length_cons] at hl
            omega
          have hinv' : (((c :: cs.takeWhile Char.isDigit).reverse ++ seen).head?.all
                (fun c => !c.isDigit) ||
              (cs.dropWhile Char.isDigit).head?.all (fun c => !c.isDigit)) = true := by
            rw [Bool.or_eq_true]
            right
            cases hh : (cs.dropWhile Char.isDigit).head? with
            | none => simp [Option.all]
            | some x =>
              have := headNotWs_dropWhile Char.isDigit cs x hh
              simp [Option.all, this]
          obtain ⟨run, heq, h4, hall, hy, h19, hub, hb, ha⟩ :=
            ih (cs.dropWhile Char.isDigit) hrest _ b y a hinv' hscan
          refine ⟨run, ?_, h4, hall, hy, h19, hub, hb, ha⟩
          rw [heq, List.reverse_append, List.reverse_reverse]
          simp [List.append_assoc, List.takeWhile_append_dropWhile]
      · rw [if_neg hc] at hscan
        have hcs : cs.length ≤ n := by
          simp only [List.length_cons] at hl
          omega
        have hinv' : ((c :: seen).head?.all (fun c => !c.isDigit) ||
            cs.head?.all (fun c => !c.isDigit)) = true := by
          rw [Bool.or_eq_true]
          left
          simp [Option.all, hc]
        obtain ⟨run, heq, h4, hall, hy, h19, hub, hb, ha⟩ :=
          ih cs hcs _ b y a hinv' hscan
        refine ⟨run, ?_, h4, hall, hy, h19, hub, hb, ha⟩
        rw [heq, List.reverse_cons]
        simp [List.append_assoc]

lemma hasYearToken_of_decomposition (cy : Nat) {b run a : List Char}
    (h4 : run.length = 4) (hall : run.all Char.isDigit = true)
    (h19 : 1900 ≤ digitsToNat run) (hub : digitsToNat run ≤ cy + 1)
    (hb : (b.getLast?.all fun c => !c.isDigit) = true)
    (ha : (a.head?.all fun c => !c.isDigit) = true) :
    hasYearToken cy (b ++ run ++ a) = true := by
  unfold hasYearToken
  rw [List.any_eq_true]
  have hdrop : (b ++ run ++ a).drop b.length = run ++ a := by
    rw [List.append_assoc, List.drop_left]
  have htake4 : ((b ++ run ++ a).drop b.length).take 4 = run := by
    rw [hdrop, ← h4, List.take_left]
  have htakei : (b ++ run ++ a).take b.length = b := by
    rw [List.append_assoc, List.take_left]
  have hdrop4 : (b ++ run ++ a).drop (b.length + 4) = a := by
    rw [← List.drop_drop, hdrop, ← h4, List.drop_left]
  refine ⟨b.length, ?_, ?_⟩
  · rw [List.mem_range]
    simp only [List.length_append, h4]
    omega
  · unfold yearTokenAt
    simp [htake4, htakei, hdrop4, h4, hall, hb, ha, h19, hub]

end OcrService

/-- C5: `extractYear` maps `"Inception (2010)"` to clean title `"Inception"`
with year 2010; maps `"District 9"` to itself with an absent year (a short
numeral is never taken as a year); and every title containing no plausible
year token is returned unchanged with an absent year.  `cy` models the
current year read from the clock; the plausibility bound is
1900 … `cy + 1`. -/
theorem extractYear_spec_behaviour (cy : Nat) (hcy : 2009 ≤ cy) :
    OcrService.extractYearFromTitle cy "Inception (2010)" = ("Inception", some 2010) ∧
    OcrService.extractYearFromTitle cy "District 9" = ("District 9", none) ∧
    ∀ t : String, OcrService.hasYearToken cy t.data = false →
      OcrService.extractYearFromTitle cy t = (t, none) := by
  refine ⟨?_, ?_, ?_⟩
  · have hd : Js.digitsToNat ['2', '0', '1', '0'] = 2010 := by decide
    have h1 : decide (Js.digitsToNat ['2', '0', '1', '0'] ≤ cy + 1) = true := by
      rw [hd]
      exact decide_eq_true (by omega)
    simp +decide [OcrService.extractYearFromTitle, OcrService.scanYear,
      OcrService.stripYearContext, h1]
  · simp +decide [OcrService.extractYearFromTitle, OcrService.scanYear]
  · intro t hno
    unfold OcrService.extractYearFromTitle
    cases hscan : OcrService.scanYear cy [] t.data with
    | none => rfl
    | some res =>
      obtain ⟨b, y, a⟩ := res
      exfalso
      obtain ⟨run, heq, h4, hall, hy, h19, hub, hb, ha⟩ :=
        OcrService.scanYear_sound cy t.data.length t.data le_rfl [] b y a (by simp) hscan
      rw [List.reverse_nil, List.nil_append] at heq
      have htok := OcrService.hasYearToken_of_decomposition cy h4 hall
        (hy ▸ h19) (hy ▸ hub) hb ha
      rw [heq, hno] at htok
      cases htok

/-- C5 witness: the two concrete mappings at current year 2026, and a
concrete no-year-token title returned unchanged. -/
theorem extractYear_spec_behaviour_witness :
    OcrService.extractYearFromTitle 2026 "Inception (2010)" = ("Inception", some 2010) ∧
      OcrService.extractYearFromTitle 2026 "The Matrix" = ("The Matrix", none) := by
  obtain ⟨h1, _, h3⟩ := extractYear_spec_behaviour 2026 (by decide)
  exact ⟨h1, h3 "The Matrix" (by decide)⟩

/-! ### C6: best-candidate selection -/

namespace TmdbService

open Js

lemma pairLe_trans : ∀ a b c : Candidate × ℝ,
    (fun a b : Candidate × ℝ => decide (b.2 ≤ a.2)) a b = true →
    (fun a b : Candidate × ℝ => decide (b.2 ≤ a.2)) b c = true →
    (fun a b : Candidate × ℝ => decide (b.2 ≤ a.2)) a c = true := by
  intro a b c h1 h2
  simp only [decide_eq_true_eq] at h1 h2 ⊢
  exact h2.trans h1

lemma pairLe_total : ∀ a b : Candidate × ℝ,
    ((fun a b : Candidate × ℝ => decide (b.2 ≤ a.2)) a b ||
      (fun a b : Candidate × ℝ => decide (b.2 ≤ a.2)) b a) = true := by
  intro a b
  simp only [Bool.or_eq_true, decide_eq_true_eq]
  exact le_total b.2 a.2

lemma firstArgmax_cons_ne_none (x : Candidate × ℝ) (xs : List (Candidate × ℝ)) :
    firstArgmax (x :: xs) ≠ none := by
  simp only [firstArgmax]
  rcases firstArgmax xs with _ | y
  · simp
  · by_cases hle : y.2 ≤ x.2 <;> simp [hle]

lemma firstArgmax_spec :
    ∀ (l : List (Candidate × ℝ)) (m : Candidate × ℝ), firstArgmax l = some m →
      m ∈ l ∧ (∀ x ∈ l, x.2 ≤ m.2) ∧
        ∃ pre post, l = pre ++ m :: post ∧ ∀ x ∈ pre, x.2 < m.2 := by
  intro l
  induction l with
  | nil => intro m hm; simp [firstArgmax] at hm
  | cons x xs ih =>
    intro m hm
    rcases h : firstArgmax xs with _ | y
    · simp only [firstArgmax, h] at hm
      have hxs : xs = [] := by
        cases xs with
        | nil => rfl
        | cons z zs => exact absurd h (firstArgmax_cons_ne_none z zs)
      subst hxs
      obtain rfl : x = m := by simpa using hm
      exact ⟨by simp, by simp, [], [], rfl, by simp⟩
    · simp only [firstArgmax, h] at hm
      by_cases hle : y.2 ≤ x.2
      · rw [if_pos hle] at hm
        obtain rfl : x = m := by simpa using hm
        obtain ⟨hymem, hybound, _⟩ := ih y h
        refine ⟨by simp, ?_, [], xs, rfl, by simp⟩
        intro z hz
        rcases List.mem_cons.mp hz with hz | hz
        · exact hz ▸ le_refl _
        · exact (hybound z hz).trans hle
      · rw [if_neg hle] at hm
        obtain rfl : y = m := by simpa using hm
        obtain ⟨hymem, hybound, pre, post, hdecomp, hpre⟩ := ih y h
        have hxlt : x.2 < y.2 := not_le.mp hle
        refine ⟨List.mem_cons_of_mem _ hymem, ?_, x :: pre, post, by simp [hdecomp], ?_⟩
        · intro z hz
          rcases List.mem_cons.mp hz with hz | hz
          · exact hz ▸ hxlt.le
          · exact hybound z hz
        · intro z hz
          rcases List.mem_cons.mp hz with hz | hz
          · exact hz ▸ hxlt
          · exact hpre z hz

lemma head?_mergeSort_scoreDesc (l : List (Candidate × ℝ)) :
    (l.mergeSort (fun a b => decide (b.2 ≤ a.2))).head? = firstArgmax l := by
  induction l with
  | nil => simp [firstArgmax]
  | cons x xs ih =>
    obtain ⟨l₁, l₂, h1, h2, h3⟩ :=
      List.mergeSort_cons pairLe_trans pairLe_total x xs
    rw [h1]
    cases hl₁ : l₁ with
    | nil =>
      subst hl₁
      rw [List.nil_append] at h1 ⊢
      rw [List.nil_append] at h2
      simp only [List.head?_cons]
      rcases h : firstArgmax xs with _ | y
      · simp [firstArgmax, h]
      · have hy : l₂.head? = some y := by rw [← h2, ih, h]
        have hsorted := List.sorted_mergeSort pairLe_trans pairLe_total (x :: xs)
        rw [h1] at hsorted
        have hymem : y ∈ l₂ := by
          cases l₂ with
          | nil => simp at hy
          | cons z zs =>
            simp only [List.head?_cons, Option.some.injEq] at hy
            exact hy ▸ List.mem_cons_self _ _
        have hle : y.2 ≤ x.2 := by
          rcases List.pairwise_cons.mp hsorted with ⟨hx, _⟩
          simpa using hx y hymem
        simp [firstArgmax, h, hle]
    | cons b l₁' =>
      subst hl₁
      simp only [List.cons_append, List.head?_cons]
      have hhead : firstArgmax xs = some b := by
        rw [← ih, h2]
        simp
      have hblt : ¬(b.2 ≤ x.2) := by
        have := h3 b (List.mem_cons_self _ _)
        simpa using this
      simp [firstArgmax, hhead, hblt]

/-- C6: `selectBest` on the empty candidate list is none; whenever it
returns a candidate, that candidate's score strictly exceeds the
acceptance threshold 20 and bounds every other candidate's score from
above; and the returned candidate is the first-seen maximum in input
order — every candidate listed before it scores strictly less. -/
theorem selectBest_empty_threshold_first (cy : Int) (q : String) :
    selectBestCandidate cy [] q = none ∧
    ∀ cs c, selectBestCandidate cy cs q = some c →
      calculateCandidateScore cy c q > 20 ∧
      (∀ x ∈ cs, calculateCandidateScore cy x q ≤ calculateCandidateScore cy c q) ∧
      ∃ pre post, cs = pre ++ c :: post ∧
        ∀ x ∈ pre, calculateCandidateScore cy x q < calculateCandidateScore cy c q := by
  constructor
  · rfl
  intro cs c hsel
  cases cs with
  | nil => simp [selectBestCandidate] at hsel
  | cons c₀ cs' =>
    rw [show selectBestCandidate cy (c₀ :: cs') q =
        (match ((c₀ :: cs').map (fun candidate =>
            (candidate, calculateCandidateScore cy candidate q))).mergeSort
              (fun a b => decide (b.2 ≤ a.2)) with
          | [] => none
          | best :: _ => if best.2 > 20 then some best.1 else none) from rfl] at hsel
    rcases hfa : firstArgmax ((c₀ :: cs').map (fun candidate =>
        (candidate, calculateCandidateScore cy candidate q))) with _ | m
    · rw [List.map_cons] at hfa
      exact absurd hfa (firstArgmax_cons_ne_none _ _)
    · have hh := head?_mergeSort_scoreDesc ((c₀ :: cs').map (fun candidate =>
        (candidate, calculateCandidateScore cy candidate q)))
      rw [hfa] at hh
      cases hms : ((c₀ :: cs').map (fun candidate =>
          (candidate, calculateCandidateScore cy candidate q))).mergeSort
            (fun a b => decide (b.2 ≤ a.2)) with
      | nil => rw [hms] at hh; simp at hh
      | cons best rest =>
        rw [hms] at hh hsel
        simp only [List.head?_cons, Option.some.injEq] at hh
        rw [hh] at hsel
        have hsel' : (if m.2 > 20 then some m.1 else none) = some c := hsel
        by_cases hgt : m.2 > 20
        · rw [if_pos hgt] at hsel'
          simp only [Option.some.injEq] at hsel'
          obtain ⟨hmem, hbound, pre, post, hdecomp, hpre⟩ := firstArgmax_spec _ m hfa
          rcases List.mem_map.mp hmem with ⟨cand, hcand, hfc⟩
          have hm2 : m.2 = calculateCandidateScore cy m.1 q := by
            rw [← hfc]
          subst hsel'
          refine ⟨hm2 ▸ hgt, ?_, ?_⟩
          · intro x hx
            have := hbound _ (List.mem_map_of_mem
              (fun candidate => (candidate, calculateCandidateScore cy candidate q)) hx)
            rw [hm2] at this
            exact this
          · rcases List.map_eq_append_iff.mp hdecomp with ⟨l₁, l₂, hcs, hl₁, hl₂⟩
            cases l₂ with
            | nil => simp at hl₂
            | cons c₂ l₂' =>
              rw [List.map_cons] at hl₂
              have hc₂ : c₂ = m.1 := by
                have := (List.cons.injEq _ _ _ _).mp hl₂
                rw [← this.1]
              refine ⟨l₁, l₂', by rw [hcs, hc₂], ?_⟩
              intro x hx
              have hfx : (x, calculateCandidateScore cy x q) ∈ pre := by
                rw [← hl₁]
                exact List.mem_map_of_mem _ hx
              have := hpre _ hfx
              rw [hm2] at this
              exact this
        · rw [if_neg hgt] at hsel'
          exact Option.noConfusion hsel'

lemma score_incCandidate :
    calculateCandidateScore 2026 incCandidate "inception" = 130 := by
  have hlen : (wordsLongerThan2 (normalizeText "inception").data).length = 1 := by decide
  have hmatch : ((wordsLongerThan2 (normalizeText "inception").data).filter
      (fun qWord => (wordsLongerThan2 (normalizeText "inception").data).any
        (fun tWord => wordMatches qWord tWord))).length = 1 := by decide
  simp only [calculateCandidateScore, incCandidate]
  simp only [if_true, hlen, hmatch, numOr0, strTruthy, jsGetFullYear]
  norm_num [Real.logb_one, inf_eq_min, min_def, sup_eq_max, max_def]

/-- C6 witness: on the concrete singleton list holding the exact-match
candidate (score 130), `selectBestCandidate` returns that candidate and
its score exceeds the threshold. -/
theorem selectBest_empty_threshold_first_witness :
    selectBestCandidate 2026 [incCandidate] "inception" = some incCandidate ∧
      calculateCandidateScore 2026 incCandidate "inception" > 20 := by
  have hsel : selectBestCandidate 2026 [incCandidate] "inception" = some incCandidate := by
    simp only [selectBestCandidate, List.map_cons, List.map_nil, List.mergeSort_singleton]
    rw [if_pos]
    rw [score_incCandidate]
    norm_num
  exact ⟨hsel,
    ((selectBest_empty_threshold_first 2026 "inception").2 [incCandidate]
      incCandidate hsel).1⟩

end TmdbService

/-! ### C7: scoring monotonicity (exact match vs substring match) -/

namespace TmdbService

open Js

lemma wordsLongerThan2_length_decomposition (l : List Char) :
    (wordsLongerThan2 l).length =
      (if 2 < (headChunk isWsChar l).length then 1 else 0)
        + tailLongChunks isWsChar l := by
  unfold wordsLongerThan2 headChunk tailLongChunks
  cases hS : l.splitOnP isWsChar with
  | nil => exact absurd hS (List.splitOnP_ne_nil _ _)
  | cons h t =>
    rw [List.filter_cons]
    by_cases hlen : 2 < h.length
    · simp [hlen]
      omega
    · simp [hlen]

lemma headChunk_tail_append (x y : List Char) :
    headChunk isWsChar x <+: headChunk isWsChar (x ++ y) ∧
      tailLongChunks isWsChar x ≤ tailLongChunks isWsChar (x ++ y) := by
  induction x with
  | nil =>
    constructor
    · simp [headChunk, List.splitOnP_nil]
    · simp [tailLongChunks, List.splitOnP_nil]
  | cons c x' ih =>
    by_cases hc : isWsChar c
    · have h1 : ∀ z : List Char, headChunk isWsChar (c :: z) = [] := by
        intro z
        simp [headChunk, List.splitOnP_cons, hc]
      have h2 : ∀ z : List Char,
          tailLongChunks isWsChar (c :: z) = (wordsLongerThan2 z).length := by
        intro z
        simp [tailLongChunks, wordsLongerThan2, List.splitOnP_cons, hc]
      rw [List.cons_append, h1, h1, h2, h2]
      refine ⟨?_, ?_⟩
      · exact List.nil_prefix
      rw [wordsLongerThan2_length_decomposition,
        wordsLongerThan2_length_decomposition]
      have hind : (if 2 < (headChunk isWsChar x').length then 1 else 0)
          ≤ (if 2 < (headChunk isWsChar (x' ++ y)).length then (1 : Nat) else 0) := by
        by_cases hl : 2 < (headChunk isWsChar x').length
        · rw [if_pos hl, if_pos (lt_of_lt_of_le hl ih.1.length_le)]
        · rw [if_neg hl]
          by_cases hl2 : 2 < (headChunk isWsChar (x' ++ y)).length <;> simp [hl2]
      exact Nat.add_le_add hind ih.2
    · have hsplit : ∀ z : List Char, ∃ h t, z.splitOnP isWsChar = h :: t := by
        intro z
        cases hS : z.splitOnP isWsChar with
        | nil => exact absurd hS (List.splitOnP_ne_nil _ _)
        | cons h t => exact ⟨h, t, rfl⟩
      obtain ⟨h₁, t₁, hS₁⟩ := hsplit (x' ++ y)
      obtain ⟨h₂, t₂, hS₂⟩ := hsplit x'
      have e₁ : headChunk isWsChar (c :: (x' ++ y)) = c :: h₁ := by
        simp [headChunk, List.splitOnP_cons, hc, hS₁]
      have e₂ : headChunk isWsChar (c :: x') = c :: h₂ := by
        simp [headChunk, List.splitOnP_cons, hc, hS₂]
      have e₃ : tailLongChunks isWsChar (c :: (x' ++ y)) = tailLongChunks isWsChar (x' ++ y) := by
        simp [tailLongChunks, List.splitOnP_cons, hc, hS₁]
      have e₄ : tailLongChunks isWsChar (c :: x') = tailLongChunks isWsChar x' := by
        simp [tailLongChunks, List.splitOnP_cons, hc, hS₂]
      rw [List.cons_append, e₁, e₂, e₃, e₄]
      have hh₁ : headChunk isWsChar (x' ++ y) = h₁ := by simp [headChunk, hS₁]
      have hh₂ : headChunk isWsChar x' = h₂ := by simp [headChunk, hS₂]
      refine ⟨?_, ih.2⟩
      rw [ List.cons_prefix_cons]
      exact ⟨rfl, hh₂ ▸ hh₁ ▸ ih.1⟩

lemma wordsLongerThan2_le_append_left (x y : List Char) :
    (wordsLongerThan2 x).length ≤ (wordsLongerThan2 (x ++ y)).length := by
  rw [wordsLongerThan2_length_decomposition, wordsLongerThan2_length_decomposition]
  have h := headChunk_tail_append x y
  have hind : (if 2 < (headChunk isWsChar x).length then 1 else 0)
      ≤ (if 2 < (headChunk isWsChar (x ++ y)).length then (1 : Nat) else 0) := by
    by_cases hl : 2 < (headChunk isWsChar x).length
    · rw [if_pos hl, if_pos (lt_of_lt_of_le hl h.1.length_le)]
    · by_cases hl2 : 2 < (headChunk isWsChar (x ++ y)).length <;> simp [hl, hl2]
  exact Nat.add_le_add hind h.2

lemma wordsLongerThan2_le_append_right (x y : List Char) :
    (wordsLongerThan2 y).length ≤ (wordsLongerThan2 (x ++ y)).length := by
  induction x with
  | nil => simp
  | cons c x' ih =>
    by_cases hc : isWsChar c
    · have h2 : wordsLongerThan2 (c :: (x' ++ y)) = wordsLongerThan2 (x' ++ y) := by
        simp [wordsLongerThan2, List.splitOnP_cons, hc]
      rw [List.cons_append, h2]
      exact ih
    · rw [List.cons_append]
      have hsplit : ∃ h t, (x' ++ y).splitOnP isWsChar = h :: t := by
        cases hS : (x' ++ y).splitOnP isWsChar with
        | nil => exact absurd hS (List.splitOnP_ne_nil _ _)
        | cons h t => exact ⟨h, t, rfl⟩
      obtain ⟨h₁, t₁, hS₁⟩ := hsplit
      have e₁ : headChunk isWsChar (c :: (x' ++ y)) = c :: h₁ := by
        simp [headChunk, List.splitOnP_cons, hc, hS₁]
      have e₃ : tailLongChunks isWsChar (c :: (x' ++ y))
          = tailLongChunks isWsChar (x' ++ y) := by
        simp [tailLongChunks, List.splitOnP_cons, hc, hS₁]
      have hrhs : (wordsLongerThan2 (c :: (x' ++ y))).length =
          (if 2 < (c :: h₁).length then 1 else 0) + tailLongChunks isWsChar (x' ++ y) := by
        rw [wordsLongerThan2_length_decomposition, e₁, e₃]
      have hback : (wordsLongerThan2 (x' ++ y)).length =
          (if 2 < h₁.length then 1 else 0) + tailLongChunks isWsChar (x' ++ y) := by
        rw [wordsLongerThan2_length_decomposition]
        simp [headChunk, hS₁]
      have hind : (if 2 < h₁.length then 1 else 0)
          ≤ (if 2 < (c :: h₁).length then (1 : Nat) else 0) := by
        by_cases hl : 2 < h₁.length
        · rw [if_pos hl, if_pos (by simp; omega)]
        · by_cases hl2 : 2 < (c :: h₁).length <;> simp [hl, hl2]
      calc (wordsLongerThan2 y).length ≤ (wordsLongerThan2 (x' ++ y)).length := ih
        _ = (if 2 < h₁.length then 1 else 0) + tailLongChunks isWsChar (x' ++ y) := hback
        _ ≤ (if 2 < (c :: h₁).length then 1 else 0) + tailLongChunks isWsChar (x' ++ y) :=
            Nat.add_le_add hind le_rfl
        _ = (wordsLongerThan2 (c :: (x' ++ y))).length := hrhs.symm

lemma wordsLongerThan2_le_of_contained {q t : List Char} (h : q <:+: t) :
    (wordsLongerThan2 q).length ≤ (wordsLongerThan2 t).length := by
  obtain ⟨s₁, s₂, rfl⟩ := h
  calc (wordsLongerThan2 q).length
      ≤ (wordsLongerThan2 (q ++ s₂)).length := wordsLongerThan2_le_append_left _ _
    _ ≤ (wordsLongerThan2 (s₁ ++ (q ++ s₂))).length :=
        wordsLongerThan2_le_append_right _ _
    _ = (wordsLongerThan2 (s₁ ++ q ++ s₂)).length := by rw [List.append_assoc]

end TmdbService

namespace TmdbService

open Js

/-- C7: scoring monotonicity — for a fixed query, a candidate whose
normalized title is exactly the normalized query scores at least as much
as a candidate whose normalized title merely contains the normalized
query as a substring, when both candidates carry identical popularity,
vote-count and release-date inputs. -/
theorem exact_match_scores_ge_substring (cy : Int) (q : String) (c1 c2 : Candidate)
    (h1 : normalizeText c1.title = normalizeText q)
    (h2 : (normalizeText q).data <:+: (normalizeText c2.title).data)
    (hpop : c1.popularity = c2.popularity)
    (hvote : c1.vote_count = c2.vote_count)
    (hdate : c1.date = c2.date) :
    calculateCandidateScore cy c2 q ≤ calculateCandidateScore cy c1 q := by
  have hM₁ : (wordsLongerThan2 (normalizeText q).data).filter
      (fun qWord => (wordsLongerThan2 (normalizeText q).data).any
        (fun tWord => wordMatches qWord tWord)) = wordsLongerThan2 (normalizeText q).data := by
    rw [List.filter_eq_self]
    intro w hw
    rw [List.any_eq_true]
    refine ⟨w, hw, ?_⟩
    rw [wordMatches, Bool.or_eq_true, decide_eq_true_eq]
    exact Or.inl ⟨[], [], by simp⟩
  simp only [calculateCandidateScore]
  rw [h1, hpop, hvote, hdate]
  rw [if_pos (rfl : normalizeText q = normalizeText q)]
  rw [hM₁, sub_self]
  simp only [Int.cast_zero, zero_mul]
  rw [min_eq_right (by norm_num : (0:ℝ) ≤ 20)]
  set nq := normalizeText q with hnq
  set nt := normalizeText c2.title with hnt
  set QW := wordsLongerThan2 nq.data with hQW
  set TW := wordsLongerThan2 nt.data with hTW
  set M2 := QW.filter (fun qWord => TW.any (fun tWord => wordMatches qWord tWord)) with hM2
  have hqw_le_tw : QW.length ≤ TW.length := wordsLongerThan2_le_of_contained h2
  have hm2_le_qw : M2.length ≤ QW.length := List.length_filter_le _ _
  have hD : (0:ℝ) < (QW.length : ℝ) ⊔ 1 := lt_of_lt_of_le zero_lt_one le_sup_right
  have hA : (if nt = nq then (100:ℝ)
      else if nq.data <+: nt.data then 60
      else if nq.data <:+: nt.data then 40 else 0) ≤ 100 := by
    split_ifs <;> norm_num
  have hF : (M2.length : ℝ) / ((QW.length : ℝ) ⊔ 1) * 30
      ≤ (QW.length : ℝ) / ((QW.length : ℝ) ⊔ 1) * 30 := by
    apply mul_le_mul_of_nonneg_right _ (by norm_num : (0:ℝ) ≤ 30)
    exact (div_le_div_iff_of_pos_right hD).mpr (Nat.cast_le.mpr hm2_le_qw)
  have hpen : (0:ℝ) ≤ min 20 ((((TW.length : Int) - (M2.length : Int) : Int) : ℝ) * 2) := by
    apply le_min (by norm_num)
    apply mul_nonneg _ (by norm_num)
    rw [show ((0:ℝ) = ((0 : Int) : ℝ)) from by norm_num]
    rw [Int.cast_le]
    omega
  linarith [hA, hF, hpen]

end TmdbService

/-! ### C7 witness, C2/C4/C10: the resolution cascade and its batches -/

/-- C7 witness: at the concrete query `"inception"`, the substring-match
candidate titled `"the inception movie"` scores at most the exact-match
candidate, all popularity/vote/date inputs equal (absent). -/
theorem exact_match_scores_ge_substring_witness :
    TmdbService.calculateCandidateScore 2026
        { id := 2, media_type := .movie, title := "the inception movie",
          date := none, popularity := none, vote_count := none } "inception"
      ≤ TmdbService.calculateCandidateScore 2026 TmdbService.incCandidate "inception" :=
  TmdbService.exact_match_scores_ge_substring 2026 "inception" TmdbService.incCandidate
    { id := 2, media_type := .movie, title := "the inception movie",
      date := none, popularity := none, vote_count := none }
    (by decide) (by decide) rfl rfl rfl

namespace TmdbService

open Js

lemma selectBest_inc :
    selectBestCandidate 2026 [incCandidate] "inception" = some incCandidate := by
  simp only [selectBestCandidate, List.map_cons, List.map_nil, List.mergeSort_singleton]
  rw [if_pos]
  rw [score_incCandidate]
  norm_num

lemma runAttempt_inception :
    runAttempt envInception 2026 {} "inception" ("de-DE", SearchKind.movie, "inception")
      = some rInc := by
  have hfetch : fetchCandidates envInception {} ("de-DE", SearchKind.movie, "inception")
      = .ok [incCandidate] := rfl
  have hresolve : resolveImdbId envInception "de-DE" incCandidate = some "tt1375666" := rfl
  unfold runAttempt
  rw [hfetch]
  show (match selectBestCandidate 2026 [incCandidate] "inception" with
    | none => none
    | some bestCandidate => buildResult envInception 2026 "inception" "de-DE" bestCandidate)
      = some rInc
  rw [selectBest_inc]
  show buildResult envInception 2026 "inception" "de-DE" incCandidate = some rInc
  unfold buildResult
  rw [hresolve, score_incCandidate]
  norm_num
  exact ⟨by decide, by decide⟩

lemma getImdbIdForTitle_inception :
    getImdbIdForTitle envInception 2026 "inception" {} = some rInc := by
  have hnorm : normalizeText "inception" = "inception" := by decide
  have hcombos : cascadeCombos "inception"
      = [("de-DE", SearchKind.movie, "inception"), ("de-DE", SearchKind.tv, "inception"),
         ("de-DE", SearchKind.multi, "inception"), ("en-US", SearchKind.movie, "inception"),
         ("en-US", SearchKind.tv, "inception"), ("en-US", SearchKind.multi, "inception")] := by
    decide
  unfold getImdbIdForTitle
  rw [hnorm, hcombos, List.findSome?_cons, runAttempt_inception]

/-- C2: the resolution cascade never returns a `ResolvedMatch` whose
external id is absent — whenever `getImdbIdForTitle` returns a result its
`imdbId` is non-empty — and whenever every combination's attempt (fetch,
best-candidate selection, id fallback chain) yields nothing, the cascade
returns an explicit `none`; the embedded function is total, so exhaustion
is never an error or a throw. -/
theorem cascade_requires_external_id (env : TmdbEnv) (cy : Int)
    (t : String) (options : SearchOptions) :
    (∀ r, getImdbIdForTitle env cy t options = some r → r.imdbId ≠ "") ∧
    ((∀ combo ∈ cascadeCombos t,
        runAttempt env cy options (normalizeText t) combo = none) →
      getImdbIdForTitle env cy t options = none) := by
  constructor
  · intro r hr
    unfold getImdbIdForTitle at hr
    obtain ⟨combo, _, hrun⟩ := List.exists_of_findSome?_eq_some hr
    unfold runAttempt at hrun
    rcases hfetch : fetchCandidates env options combo with e | candidates <;>
      rw [hfetch] at hrun
    · exact Option.noConfusion hrun
    · have hrun1 : (match selectBestCandidate cy candidates (normalizeText t) with
        | none => none
        | some bestCandidate =>
          buildResult env cy (normalizeText t) combo.1 bestCandidate) = some r := hrun
      rcases hsel : selectBestCandidate cy candidates (normalizeText t) with _ | best <;>
        rw [hsel] at hrun1
      · exact Option.noConfusion hrun1
      · have hrun2 : (if strTruthy (resolveImdbId env combo.1 best) = true then
            some { title := best.title
                   imdbId := (resolveImdbId env combo.1 best).getD ""
                   tmdbId := best.id
                   confidence :=
                     if calculateCandidateScore cy best (normalizeText t) ≥ 80 then "high"
                     else if calculateCandidateScore cy best (normalizeText t) ≥ 40 then
                       "medium" else "low"
                   year :=
                     if strTruthy best.date = true then jsGetFullYear (best.date.getD "")
                     else none }
          else (none : Option MovieWithImdbId)) = some r := hrun1
        by_cases htruthy : strTruthy (resolveImdbId env combo.1 best) = true
        · rw [if_pos htruthy] at hrun2
          simp only [Option.some.injEq] at hrun2
          rcases hid : resolveImdbId env combo.1 best with _ | s <;>
            rw [hid] at htruthy
          · exact absurd htruthy (by simp [strTruthy])
          · have hs : s ≠ "" := by simpa [strTruthy] using htruthy
            rw [← hrun2]
            simpa [hid] using hs
        · rw [if_neg htruthy] at hrun2
          exact Option.noConfusion hrun2
  · intro hall
    unfold getImdbIdForTitle
    exact List.findSome?_eq_none_iff.mpr hall

/-- C2 witness: a successful concrete resolution carries a non-empty
external id, and a concrete environment whose every attempt fails makes
the cascade return `none`. -/
theorem cascade_requires_external_id_witness :
    rInc.imdbId ≠ "" ∧ getImdbIdForTitle envAllFail 2026 "zzz" {} = none := by
  constructor
  · exact (cascade_requires_external_id envInception 2026 "inception" {}).1 rInc
      getImdbIdForTitle_inception
  · refine (cascade_requires_external_id envAllFail 2026 "zzz" {}).2 ?_
    intro combo _
    obtain ⟨lang, kind, query⟩ := combo
    cases kind <;> rfl

lemma batch_eq_filterMap (env : TmdbEnv) (cy : Int) (options : SearchOptions) :
    ∀ titles, getImdbIdsForTitles env cy options titles
      = titles.filterMap (fun t => getImdbIdForTitle env cy t options) := by
  suffices h : ∀ (n : Nat) (titles : List String), titles.length ≤ n →
      getImdbIdsForTitles env cy options titles
        = titles.filterMap (fun t => getImdbIdForTitle env cy t options) by
    exact fun titles => h titles.length titles le_rfl
  intro n
  induction n with
  | zero =>
    intro titles hlen
    rw [List.eq_nil_of_length_eq_zero (Nat.le_zero.mp hlen)]
    simp [getImdbIdsForTitles]
  | succ n ih =>
    intro titles hlen
    cases titles with
    | nil => simp [getImdbIdsForTitles]
    | cons t rest =>
      rw [getImdbIdsForTitles]
      rw [ih ((t :: rest).drop 3) (by simp [List.length_drop] at hlen ⊢; omega)]
      rw [List.filterMap_map, Function.id_comp]
      rw [← List.filterMap_append, List.take_append_drop]

/-- C4: the batch entry point isolates per-title failures — when one
title's resolution produces nothing (every failure inside a resolution
is caught, so a failed resolution is exactly a `none` result), the batch
still returns the resolved results of the other titles instead of
aborting. -/
theorem batch_isolates_failures (env : TmdbEnv) (cy : Int) (options : SearchOptions)
    (a b c : String) (hb : getImdbIdForTitle env cy b options = none) :
    getImdbIdsForTitles env cy options [a, b, c]
      = (getImdbIdForTitle env cy a options).toList
        ++ (getImdbIdForTitle env cy c options).toList := by
  rw [batch_eq_filterMap]
  rcases ha : getImdbIdForTitle env cy a options with _ | ra <;>
    rcases hc : getImdbIdForTitle env cy c options with _ | rc <;>
      simp [List.filterMap_cons, ha, hb, hc]

/-- C4 witness: in the concrete environment, `"inception"` resolves and
`"zzz"` does not; the batch of the three titles returns both `"inception"`
results and drops the failed middle title without aborting. -/
theorem batch_isolates_failures_witness :
    getImdbIdsForTitles envInception 2026 {} ["inception", "zzz", "inception"]
      = [rInc, rInc] := by
  have hzzz : getImdbIdForTitle envInception 2026 "zzz" {} = none := by
    refine (cascade_requires_external_id envInception 2026 "zzz" {}).2 ?_
    intro combo hcombo
    have hcombos : cascadeCombos "zzz"
        = [("de-DE", SearchKind.movie, "zzz"), ("de-DE", SearchKind.tv, "zzz"),
           ("de-DE", SearchKind.multi, "zzz"), ("en-US", SearchKind.movie, "zzz"),
           ("en-US", SearchKind.tv, "zzz"), ("en-US", SearchKind.multi, "zzz")] := by
      decide
    rw [hcombos] at hcombo
    fin_cases hcombo <;> rfl
  rw [batch_isolates_failures envInception 2026 {} "inception" "zzz" "inception" hzzz]
  rw [getImdbIdForTitle_inception]
  rfl

end TmdbService

namespace OmdbService

lemma omdb_batch_eq_filterMap (env : OmdbEnv) :
    ∀ ids, getImdbRatingsForIds env ids
      = ids.filterMap (getImdbRatingByImdbId env) := by
  suffices h : ∀ (n : Nat) (ids : List String), ids.length ≤ n →
      getImdbRatingsForIds env ids = ids.filterMap (getImdbRatingByImdbId env) by
    exact fun ids => h ids.length ids le_rfl
  intro n
  induction n with
  | zero =>
    intro ids hlen
    rw [List.eq_nil_of_length_eq_zero (Nat.le_zero.mp hlen)]
    simp [getImdbRatingsForIds]
  | succ n ih =>
    intro ids hlen
    cases ids with
    | nil => simp [getImdbRatingsForIds]
    | cons i rest =>
      rw [getImdbRatingsForIds]
      rw [ih ((i :: rest).drop 5) (by simp [List.length_drop] at hlen ⊢; omega)]
      rw [List.filterMap_map, Function.id_comp]
      rw [← List.filterMap_append, List.take_append_drop]

end OmdbService

/-- C10: both batch entry points return exactly the non-null per-input
results, in input order — the output is the in-order `filterMap` of the
per-title (resp. per-id) resolutions over the input list, so slicing into
concurrency groups of 3 resp. 5 never reorders results. -/
theorem batch_results_preserve_input_order (env : TmdbService.TmdbEnv) (cy : Int)
    (options : TmdbService.SearchOptions) (titles : List String)
    (oenv : OmdbService.OmdbEnv) (ids : List String) :
    TmdbService.getImdbIdsForTitles env cy options titles
        = titles.filterMap (fun t => TmdbService.getImdbIdForTitle env cy t options) ∧
      OmdbService.getImdbRatingsForIds oenv ids
        = ids.filterMap (OmdbService.getImdbRatingByImdbId oenv) :=
  ⟨TmdbService.batch_eq_filterMap env cy options titles,
    OmdbService.omdb_batch_eq_filterMap oenv ids⟩
